import Mathlib

/-!
Verification development for the orcrs ORC reader.

Shallow embedding of the decoding core (src/column.rs, src/rle/byte.rs,
src/rle/intv1.rs, src/rle/intv2.rs, src/compress.rs, src/parser.rs) as
executable Lean definitions, followed by theorems about them.

Machine-integer conventions: Rust `u64` values are modelled as `Nat` with
explicit `% 2^64` wherever the source wraps, `i64` values as `Int` with
explicit two's-complement reinterpretation, and `u8` bytes as `Nat`
(assumed `< 256` exactly where the Rust type system guarantees it).
Arithmetic that overflows in Rust is modelled with release-profile
(two's-complement wrapping) semantics.  Rust `panic` outcomes (out-of-bounds
indexing, `unwrap` on invalid UTF-8, unreachable arms) are modelled
explicitly by the `POr.panicked` constructor so they are never conflated
with `Option`/`Result` values.
-/

namespace Orcrs

/-- `x as u64` / wrapping `u64` arithmetic: reduce an integer to its
two's-complement 64-bit unsigned representative. -/
def wrapU64 (x : Int) : Nat := (x % (2 ^ 64 : Int)).toNat

/-- `u64 as i64`: reinterpret an unsigned 64-bit value (a `Nat < 2^64`) as a
signed 64-bit integer. -/
def toI64 (n : Nat) : Int := if n < 2 ^ 63 then (n : Int) else (n : Int) - 2 ^ 64

/-- `u8 as i8`: reinterpret a byte as a signed 8-bit integer. -/
def toI8 (n : Nat) : Int := if n < 128 then (n : Int) else (n : Int) - 256

/-- `i64 as usize` (with 64-bit `usize`): two's-complement reinterpretation of
a signed value as unsigned. -/
def i64ToU64 (x : Int) : Nat := (x % (2 ^ 64 : Int)).toNat

/-- Wrapping `i64` arithmetic (release profile): reduce an integer to its
two's-complement 64-bit signed representative. -/
def wrapI64 (x : Int) : Int := (x + 2 ^ 63) % (2 ^ 64 : Int) - 2 ^ 63

/-- Rust panic as an explicit outcome, so panicking control flow is never
conflated with ordinary return values. -/
inductive POr (α : Type) where
  | panicked : POr α
  | ok (a : α) : POr α
deriving DecidableEq, Repr

/-!
LEB128 varints, modelling `u64::decode_var` / `i64::decode_var` of the
`integer-encoding` crate used by src/rle/intv1.rs and src/rle/intv2.rs:
accumulate 7 bits per byte (the `u64` shift discards bits above 63), succeed
on a byte with the MSB clear, give up after 10 bytes or at end of input.
-/

def decodeVarU64Go : List Nat → Nat → Nat → Option (Nat × Nat)
  | [], _, _ => none
  | b :: rest, shift, acc =>
    let acc := acc ||| (((b &&& 127) <<< shift) % 2 ^ 64)
    let shift := shift + 7
    if b &&& 128 = 0 then some (acc, shift / 7)
    else if shift > 63 then none
    else decodeVarU64Go rest shift acc

/-- `u64::decode_var`: returns the decoded value and the number of bytes
consumed. -/
def decodeVarU64 (src : List Nat) : Option (Nat × Nat) := decodeVarU64Go src 0 0

/-- Zigzag decoding of a `u64` into an `i64`, as in the `integer-encoding`
crate: `(n >> 1) ^ -(n & 1)`. -/
def zigzagDecode (n : Nat) : Int := if n % 2 = 0 then ((n / 2 : Nat) : Int) else -((n / 2 : Nat) : Int) - 1

/-- `i64::decode_var`: an unsigned varint followed by zigzag decoding. -/
def decodeVarI64 (src : List Nat) : Option (Int × Nat) :=
  (decodeVarU64 src).map (fun p => (zigzagDecode p.1, p.2))

/-!
UTF-8 validity, modelling the success condition of `std::str::from_utf8`
(used with `.unwrap()` in `Column::get`).  A DFA over the byte stream: the
state is the list of admissible ranges for the remaining continuation bytes
of the current scalar value (`none` = already invalid).
-/

/-- Classify a UTF-8 leading byte: the ranges its continuation bytes must
fall in, or `none` for an invalid leading byte. -/
def utf8Classify (b : Nat) : Option (List (Nat × Nat)) :=
  if b ≤ 0x7F then some []
  else if 0xC2 ≤ b ∧ b ≤ 0xDF then some [(0x80, 0xBF)]
  else if b = 0xE0 then some [(0xA0, 0xBF), (0x80, 0xBF)]
  else if b = 0xED then some [(0x80, 0x9F), (0x80, 0xBF)]
  else if 0xE1 ≤ b ∧ b ≤ 0xEF then some [(0x80, 0xBF), (0x80, 0xBF)]
  else if b = 0xF0 then some [(0x90, 0xBF), (0x80, 0xBF), (0x80, 0xBF)]
  else if b = 0xF4 then some [(0x80, 0x8F), (0x80, 0xBF), (0x80, 0xBF)]
  else if 0xF1 ≤ b ∧ b ≤ 0xF3 then some [(0x80, 0xBF), (0x80, 0xBF), (0x80, 0xBF)]
  else none

def utf8Fold (st : Option (List (Nat × Nat))) (b : Nat) : Option (List (Nat × Nat)) :=
  match st with
  | none => none
  | some [] => utf8Classify b
  | some ((lo, hi) :: rs) => if lo ≤ b ∧ b ≤ hi then some rs else none

/-- A byte sequence is valid UTF-8 iff the DFA ends in the accepting state. -/
def validUtf8 (bytes : List Nat) : Bool :=
  match bytes.foldl utf8Fold (some []) with
  | some [] => true
  | _ => false

/-!
src/value.rs — `Value<'a>`.  A borrowed `&str` is modelled as its byte
sequence.
-/

inductive Value where
  | bool (b : Bool) : Value
  | u64 (v : Nat) : Value
  | utf8 (bytes : List Nat) : Value
  | null : Value
deriving DecidableEq, Repr

/-!
src/column.rs — the materialized `Column` and its constructors.  `BitVec` is
modelled as `List Bool`.
-/

inductive Column where
  | utf8Direct (data : List Nat) (indices : List (Int × Nat)) : Column
  | utf8Dictionary (data : List Int) (dictionary : List Nat) (indices : List (Nat × Nat)) : Column
  | bool (row_count : Nat) (values : List Bool) (nulls : Option (List Bool)) : Column
  | u64 (values : List Nat) (nulls : Option (List Bool)) : Column
deriving DecidableEq, Repr

/-- `Column::get` (src/column.rs lines 29–91).  `Bool` and `U64` check the
row bound before indexing; the `Utf8*` variants index `indices[row]` /
`data[row]` directly, so an out-of-range row is a panic, not `None`.
Index-out-of-bounds, a reversed or out-of-range slice, and
`from_utf8(..).unwrap()` on invalid bytes are all panics.  `start as usize`
and the slice-end additions use two's-complement reinterpretation / wrapping
(release profile). -/
def Column.get : Column → Nat → POr (Option Value)
  | .utf8Direct data indices, row =>
    match indices.get? row with
    | none => .panicked
    | some (start, len) =>
      if start = -1 then .ok (some .null)
      else
        let s := i64ToU64 start
        let e := (s + len) % 2 ^ 64
        if s ≤ e ∧ e ≤ data.length then
          let bytes := (data.drop s).take (e - s)
          if validUtf8 bytes then .ok (some (.utf8 bytes)) else .panicked
        else .panicked
  | .utf8Dictionary data dictionary indices, row =>
    match data.get? row with
    | none => .panicked
    | some code =>
      if code = -1 then .ok (some .null)
      else
        match indices.get? (i64ToU64 code) with
        | none => .panicked
        | some (start, len) =>
          let e := (start + len) % 2 ^ 64
          if start ≤ e ∧ e ≤ dictionary.length then
            let bytes := (dictionary.drop start).take (e - start)
            if validUtf8 bytes then .ok (some (.utf8 bytes)) else .panicked
          else .panicked
  | .bool row_count values nulls, row =>
    if row < row_count then
      match nulls with
      | some ns =>
        match ns.get? row with
        | none => .panicked
        | some true => .ok (some .null)
        | some false =>
          match values.get? row with
          | none => .panicked
          | some v => .ok (some (.bool v))
      | none =>
        match values.get? row with
        | none => .panicked
        | some v => .ok (some (.bool v))
    else .ok none
  | .u64 values nulls, row =>
    if row < values.length then
      match nulls with
      | some ns =>
        match ns.get? row with
        | none => .panicked
        | some true => .ok (some .null)
        | some false => .ok (some (.u64 (values.getD row 0)))
      | none => .ok (some (.u64 (values.getD row 0)))
    else .ok none

/-- The null-weaving loop shared by `make_utf8_dictionary_column` and
`make_utf8_direct_column`: for the k-th null-run entry, emit that many `-1`
sentinels, then `values[k] as i64` when it exists.  `i` is the running
`current_present_index`. -/
def weaveCodes (values : List Nat) : List Nat → Nat → List Int
  | [], _ => []
  | nr :: rest, i =>
    List.replicate nr (-1) ++
      (match values.get? i with
       | some v => [toI64 v]
       | none => []) ++ weaveCodes values rest (i + 1)

/-- The weaving loop of `make_u64_column`: nulls become value `0` with null
bit `true`; present rows keep their decoded value with null bit `false`. -/
def weaveU64 (values : List Nat) : List Nat → Nat → List Nat × List Bool
  | [], _ => ([], [])
  | nr :: rest, i =>
    let tail := weaveU64 values rest (i + 1)
    (List.replicate nr 0 ++
       (match values.get? i with
        | some v => [v]
        | none => []) ++ tail.1,
     List.replicate nr true ++
       (match values.get? i with
        | some _ => [false]
        | none => []) ++ tail.2)

/-- `Column::make_u64_column` (src/column.rs lines 93–121). -/
def Column.make_u64_column (values : List Nat) (null_runs : List Nat) : Column :=
  if null_runs.isEmpty then .u64 values none
  else
    let woven := weaveU64 values null_runs 0
    .u64 woven.1 (some woven.2)

/-- The dictionary index prefix sum of `make_utf8_dictionary_column`:
`total_inc` is a `u64`, so the running sum wraps. -/
def buildDictIndices : List Nat → Nat → List (Nat × Nat)
  | [], _ => []
  | l :: rest, t => (t, l) :: buildDictIndices rest ((t + l) % 2 ^ 64)

/-- `Column::make_utf8_dictionary_column` (src/column.rs lines 123–161). -/
def Column.make_utf8_dictionary_column (null_runs : Option (List Nat)) (data : List Nat)
    (dictionary_bytes : List Nat) (lengths : List Nat) : Column :=
  let new_data :=
    match null_runs with
    | some nrs => weaveCodes data nrs 0
    | none => data.map toI64
  .utf8Dictionary new_data dictionary_bytes (buildDictIndices lengths 0)

/-- The index-building loop of `make_utf8_direct_column`: a `-1` length is a
null row and gets the sentinel `(-1, 0)` without advancing the cursor; any
other length is emitted as `(total_inc, length as u64)` and advances the
`i64` cursor (wrapping, release profile). -/
def buildDirectIndices : List Int → Int → List (Int × Nat)
  | [], _ => []
  | l :: rest, t =>
    if l = -1 then (-1, 0) :: buildDirectIndices rest t
    else (t, i64ToU64 l) :: buildDirectIndices rest (wrapI64 (t + l))

/-- `Column::make_utf8_direct_column` (src/column.rs lines 163–203). -/
def Column.make_utf8_direct_column (null_runs : Option (List Nat)) (data_bytes : List Nat)
    (lengths : List Nat) : Column :=
  let new_lengths :=
    match null_runs with
    | some nrs => weaveCodes lengths nrs 0
    | none => lengths.map toI64
  .utf8Direct data_bytes (buildDirectIndices new_lengths 0)

/-!
src/column.rs — `PresentInfoWriter`, folding the decoded PRESENT bit stream
(MSB-first, 1 = present) into the null-run representation.
-/

structure PresentInfoWriter where
  row_count : Nat
  null_runs : List Nat
  current_total : Nat
  current_null_run_len : Nat
deriving DecidableEq, Repr

def piwNew (rc : Nat) : PresentInfoWriter := ⟨rc, [], 0, 0⟩

/-- One bit of `PresentInfoWriter::write`: a clear bit extends the current
null run; a set bit pushes the run and accounts for it plus the present
row. -/
def piwWriteBit (w : PresentInfoWriter) (present : Bool) : PresentInfoWriter :=
  if present then
    ⟨w.row_count, w.null_runs ++ [w.current_null_run_len],
     w.current_total + w.current_null_run_len + 1, 0⟩
  else
    ⟨w.row_count, w.null_runs, w.current_total, w.current_null_run_len + 1⟩

/-- One byte of `PresentInfoWriter::write`: bits are consumed MSB-first. -/
def piwWriteByte (w : PresentInfoWriter) (b : Nat) : PresentInfoWriter :=
  (List.range 8).foldl (fun w i => piwWriteBit w (b &&& (1 <<< (7 - i)) != 0)) w

def piwWrite (w : PresentInfoWriter) (bytes : List Nat) : PresentInfoWriter :=
  bytes.foldl piwWriteByte w

/-- `PresentInfoWriter::into_inner`: push the trailing null run
`row_count - current_total` (a `u64` subtraction; the claims assume
`current_total ≤ row_count`, matching the `Nat` subtraction here). -/
def piwIntoInner (w : PresentInfoWriter) : List Nat :=
  w.null_runs ++ [w.row_count - w.current_total]

/-- Number of set bits among the 8 MSB-first positions of one byte — the
present rows contributed by that byte. -/
def byteOnes (b : Nat) : Nat :=
  ((List.range 8).filter (fun i => b &&& (1 <<< (7 - i)) != 0)).length

/-- Number of present (1) bits in a decoded PRESENT byte stream. -/
def presentCount (bytes : List Nat) : Nat := (bytes.map byteOnes).sum

/-!
src/rle/byte.rs — the streaming byte RLE decoder.  `bwRun s buf` processes
one `write(buf)` call from state `s`, returning the final state and the
bytes emitted to the inner writer.
-/

inductive ByteWriterState where
  | awaitingControl : ByteWriterState
  | awaitingRepeated (n : Nat) : ByteWriterState
  | literalRemaining (n : Nat) : ByteWriterState
deriving DecidableEq, Repr

/-- `<ByteWriter as Write>::write` (src/rle/byte.rs lines 30–69).  A control
byte `C < 128` starts a run of `C + 3` copies of the following byte
(`MIN_REPEAT_LEN = 3`); otherwise `C.wrapping_neg() = 256 - C` literal bytes
are copied through, possibly across calls. -/
def bwRun : ByteWriterState → List Nat → ByteWriterState × List Nat
  | s, [] => (s, [])
  | .awaitingControl, b :: rest =>
    if b < 128 then bwRun (.awaitingRepeated (b + 3)) rest
    else bwRun (.literalRemaining (256 - b)) rest
  | .awaitingRepeated n, b :: rest =>
    let r := bwRun .awaitingControl rest
    (r.1, List.replicate n b ++ r.2)
  | .literalRemaining n, b :: rest =>
    if n ≤ (b :: rest).length then
      let r := bwRun .awaitingControl ((b :: rest).drop n)
      (r.1, (b :: rest).take n ++ r.2)
    else (.literalRemaining (n - (b :: rest).length), b :: rest)
termination_by s buf => 2 * buf.length + (match s with | .literalRemaining _ => 1 | _ => 0)
decreasing_by
  all_goals simp_all [List.length_drop]
  all_goals omega

/-- Feed a sequence of buffers through `write` one call at a time, starting
from `s`; outputs are concatenated in order. -/
def bwRunChunks : ByteWriterState → List (List Nat) → ByteWriterState × List Nat
  | s, [] => (s, [])
  | s, c :: cs =>
    let r := bwRun s c
    let r' := bwRunChunks r.1 cs
    (r'.1, r.2 ++ r'.2)

/-!
src/rle/intv1.rs — integer RLE version 1, one frame
(`append_next_u64s`).
-/

/-- The run loop of intv1 `append_next_u64s`: push `last_value`, then
`last_value = (last_value as i64 + delta as i64) as u64` (wrapping, release
profile). -/
def intv1Run (base : Nat) (delta : Int) : Nat → List Nat
  | 0 => []
  | n + 1 => base :: intv1Run (wrapU64 (toI64 base + delta)) delta n

/-- The literal loop of intv1 `append_next_u64s`: decode one varint per
value starting at byte offset `current` of the frame, failing on
truncation.  Returns the values and the final offset. -/
def intv1Literals (bytes : List Nat) (current : Nat) : Nat → Option (List Nat × Nat)
  | 0 => some ([], current)
  | n + 1 =>
    (decodeVarU64 (bytes.drop current)).bind fun p =>
      (intv1Literals bytes (current + p.2) n).map fun q => (p.1 :: q.1, q.2)

/-- `append_next_u64s` (src/rle/intv1.rs lines 19–47).  Header byte `< 128`:
a constant-delta run of `H + 3` values (signed 8-bit delta, varint base);
header byte `≥ 128`: `256 - H` literal varints.  The `signed` flag is
threaded through but unused, as in the source. -/
def intv1AppendNext (bytes : List Nat) (_signed : Bool) : Option (List Nat × Nat) :=
  match bytes with
  | [] => none
  | first :: rest =>
    if first < 128 then
      match rest with
      | [] => none
      | second :: _ =>
        match decodeVarU64 (bytes.drop 2) with
        | none => none
        | some (base, read_len) => some (intv1Run base (toI8 second) (first + 3), read_len + 2)
    else intv1Literals bytes 1 (256 - first)

/-- Specification-side reading of a literal block (§4.4 of the spec): decode
`n` consecutive varints from a byte stream, returning the values and the
total bytes consumed.  `intv1Literals` tracks an absolute offset into the
frame instead; `c8_intv1_frames` relates the two. -/
def varintSeq : List Nat → Nat → Option (List Nat × Nat)
  | _, 0 => some ([], 0)
  | bs, n + 1 =>
    (decodeVarU64 bs).bind fun p =>
      (varintSeq (bs.drop p.2) n).map fun q => (p.1 :: q.1, p.2 + q.2)

/-!
src/rle/intv2.rs — integer RLE version 2, one frame
(`parse_header` / `append_next_u64s` and their helpers).
-/

/-- `bits_to_bytes`. -/
def bitsToBytes (bit_count : Nat) : Nat :=
  bit_count / 8 + (if bit_count % 8 = 0 then 0 else 1)

/-- `FIVE_BIT_ENCODING`. -/
def FIVE_BIT_ENCODING : List Nat :=
  [0, 2, 3, 4, 5, 6, 7, 8, 9, 10, 11, 12, 13, 14, 15, 16, 17, 18, 19, 20,
   21, 22, 23, 24, 26, 28, 30, 32, 40, 48, 56, 64]

/-- `five_bit_width`; the argument is always a masked 5-bit value, so the
out-of-range default of `getD` is never reached. -/
def fiveBitWidth (byte : Nat) (is_delta : Bool) : Nat :=
  if !is_delta && byte = 0 then 1 else FIVE_BIT_ENCODING.getD byte 0

/-- `closest_fixed_bits`. -/
def closestFixedBits (bits : Nat) : Nat :=
  if bits = 0 then 1
  else if bits ≤ 24 then bits
  else if bits ≤ 26 then 26
  else if bits ≤ 28 then 28
  else if bits ≤ 30 then 30
  else if bits ≤ 32 then 32
  else if bits ≤ 40 then 40
  else if bits ≤ 48 then 48
  else if bits ≤ 56 then 56
  else 64

/-- `read_u64_be_bytes`: a big-endian unsigned integer from the first
`byte_width` bytes. -/
def readU64BeBytes (bytes : List Nat) (byte_width : Nat) : Option Nat :=
  if byte_width > 8 ∨ bytes.length < byte_width then none
  else some ((bytes.take byte_width).foldl (fun acc b => acc * 256 + b) 0)

/-- `read_u64_be_bits`: a `bit_width`-bit big-endian value starting at
`bit_offset` bits into `bytes`.  After the length check every index the
source reads is in bounds (for the widths the decoder uses), so `getD 0`
coincides with Rust indexing. -/
def readU64BeBits (bytes : List Nat) (bit_offset : Nat) (bit_width : Nat) : Option Nat :=
  let bits_needed := bit_offset + bit_width
  let bits_leftover := bits_needed % 8
  let bytes_needed := bits_needed / 8 + (if bits_leftover = 0 then 0 else 1)
  if bit_width > 64 ∨ bytes.length < bytes_needed then none
  else
    let current_byte := bit_offset / 8
    let current_bit := bit_offset % 8
    let first := (bytes.getD current_byte 0) &&& (255 >>> current_bit)
    let value := (List.range (bytes_needed - current_byte - 1)).foldl
      (fun acc i => acc * 256 + bytes.getD (current_byte + 1 + i) 0) first
    some (if bits_leftover = 0 then value else value >>> (8 - bits_leftover))

inductive IntV2Header where
  | shortRepeat (width repeat_count : Nat) : IntV2Header
  | direct (width : Nat) (len : Nat) : IntV2Header
  | patchedBase (width len base_width patch_width patch_gap_width patch_list_len : Nat) : IntV2Header
  | delta (width : Nat) (len : Nat) : IntV2Header
deriving DecidableEq, Repr

/-- Decode outcome distinguishing Rust `None` (`fail`) from a panic. -/
inductive DecodeRes (α : Type) where
  | panicked : DecodeRes α
  | fail : DecodeRes α
  | ok (a : α) : DecodeRes α
deriving DecidableEq, Repr

/-- `parse_header` (src/rle/intv2.rs lines 154–207).  `bytes[1]`, `bytes[2]`
and `bytes[3]` are indexed without bounds checks in the source, so a header
truncated there panics. -/
def parseHeader (bytes : List Nat) : DecodeRes (IntV2Header × Nat) :=
  match bytes with
  | [] => .fail
  | b0 :: rest =>
    let tag := (b0 >>> 6) &&& 3
    if tag = 0 then
      .ok (.shortRepeat (((b0 >>> 3) &&& 7) + 1) ((b0 &&& 7) + 3), 1)
    else if tag > 3 then .fail
    else
      match rest with
      | [] => .panicked
      | b1 :: rest' =>
        let width := fiveBitWidth ((b0 >>> 1) &&& 31) (tag = 3)
        let len := ((b0 &&& 1) <<< 8) + b1 + 1
        if tag = 1 then .ok (.direct width len, 2)
        else if tag = 3 then .ok (.delta width len, 2)
        else if tag = 2 then
          match rest' with
          | [] => .panicked
          | [_] => .panicked
          | b2 :: b3 :: _ =>
            let base_width := ((b2 >>> 5) &&& 7) + 1
            let patch_width := fiveBitWidth (b2 &&& 31) false
            let patch_gap_width := ((b3 >>> 5) &&& 7) + 1
            let patch_list_len := b3 &&& 31
            .ok (.patchedBase width len base_width patch_width patch_gap_width patch_list_len, 4)
        else .fail

/-- The direct-encoding read loop: `len` big-endian `width`-bit values at
consecutive bit offsets. -/
def readPackedLoop (payload : List Nat) (width : Nat) : Nat → Nat → Option (List Nat)
  | _, 0 => some []
  | i, n + 1 =>
    (readU64BeBits payload (i * width) width).bind fun v =>
      (readPackedLoop payload width (i + 1) n).map fun vs => v :: vs

/-- The delta-encoding constant loop (`width == 0`):
`last_value = (last_value as i64 + delta) as u64` each step. -/
def constDeltaLoop (last : Nat) (delta : Int) : Nat → List Nat
  | 0 => []
  | n + 1 =>
    let nv := wrapU64 (toI64 last + delta)
    nv :: constDeltaLoop nv delta n

/-- The delta-encoding magnitude loop (`width ≠ 0`): read a `width`-bit
unsigned magnitude and apply it with the sign of the first delta,
`last_value = (last_value as i64 + signum * (value as i64)) as u64`
(wrapping, release profile). -/
def deltaLoop (payload : List Nat) (width : Nat) (signum : Int) : Nat → Nat → Nat → Option (List Nat)
  | _, _, 0 => some []
  | last, i, n + 1 =>
    (readU64BeBits payload (i * width) width).bind fun m =>
      let nv := wrapU64 (toI64 last + signum * toI64 m)
      (deltaLoop payload width signum nv (i + 1) n).map fun vs => nv :: vs

/-- The patched-base patch-application loop: advance `patch_pos` by each gap
and add `patch_value << width` (shift and add wrapping, release profile) to
the data value there; an out-of-range `patch_pos` panics. -/
def patchLoop (payload : List Nat) (patch_item_len patch_gap_width patch_width width : Nat)
    (data_values : List Nat) (patch_pos : Nat) : Nat → Nat → DecodeRes (List Nat)
  | _, 0 => .ok data_values
  | i, n + 1 =>
    match readU64BeBits payload (i * patch_item_len + (patch_item_len - patch_width - patch_gap_width)) patch_gap_width with
    | none => .fail
    | some patch_gap =>
      match readU64BeBits payload (i * patch_item_len + (patch_item_len - patch_width)) patch_width with
      | none => .fail
      | some patch_value =>
        let pos := patch_pos + patch_gap
        match data_values.get? pos with
        | none => .panicked
        | some dv =>
          let dv' := (dv + ((patch_value <<< (width % 64)) % 2 ^ 64)) % 2 ^ 64
          patchLoop payload patch_item_len patch_gap_width patch_width width
            (data_values.set pos dv') pos (i + 1) n

/-- `append_next_u64s` (src/rle/intv2.rs lines 17–152), one frame.  In the
delta branch the source computes `len - 2` in `u64`/`usize`; for `len = 1`
that underflows (a panic in debug, a divergent loop in release), which is
outside every theorem below (all assume `2 ≤ len`), and is modelled here by
the saturating `Nat` subtraction. -/
def intv2AppendNext (bytes : List Nat) (signed : Bool) : DecodeRes (List Nat × Nat) :=
  match parseHeader bytes with
  | .panicked => .panicked
  | .fail => .fail
  | .ok (header, hlen) =>
    match header with
    | .shortRepeat width repeat_count =>
      let expected := hlen + width
      if bytes.length < expected then .fail
      else
        match readU64BeBytes (bytes.drop hlen) width with
        | none => .fail
        | some v => .ok (List.replicate repeat_count v, expected)
    | .direct width len =>
      let expected := hlen + bitsToBytes (width * len)
      if bytes.length < expected then .fail
      else
        match readPackedLoop (bytes.drop hlen) width 0 len with
        | none => .fail
        | some vs => .ok (vs, expected)
    | .delta width len =>
      match decodeVarI64 (bytes.drop hlen) with
      | none => .fail
      | some (base, rl1) =>
        match decodeVarI64 (bytes.drop (hlen + rl1)) with
        | none => .fail
        | some (delta, rl2) =>
          let cur := hlen + rl1 + rl2
          let expected := cur + bitsToBytes (width * (len - 2))
          if bytes.length < expected then .fail
          else
            let signum := delta.sign
            let base' := if signed then base else if base < 0 then -base * 2 - 1 else base * 2
            let v0 := wrapU64 base'
            let v1 := wrapU64 (base' + delta)
            if width = 0 then .ok (v0 :: v1 :: constDeltaLoop v1 delta (len - 2), expected)
            else
              match deltaLoop (bytes.drop cur) width signum v1 0 (len - 2) with
              | none => .fail
              | some vs => .ok (v0 :: v1 :: vs, expected)
    | .patchedBase width len base_width patch_width patch_gap_width patch_list_len =>
      let patch_item_len := closestFixedBits (patch_gap_width + patch_width)
      let expected := hlen + base_width + bitsToBytes (width * len) +
        bitsToBytes (patch_list_len * patch_item_len)
      if bytes.length < expected then .fail
      else
        match readU64BeBytes (bytes.drop hlen) base_width with
        | none => .fail
        | some base =>
          let data_start := hlen + base_width
          match readPackedLoop (bytes.drop data_start) width 0 len with
          | none => .fail
          | some raw =>
            let data_values := raw.map (fun v => (v + base) % 2 ^ 64)
            let patch_start := data_start + bitsToBytes (width * len)
            match patchLoop (bytes.drop patch_start) patch_item_len patch_gap_width patch_width
                width data_values 0 0 patch_list_len with
            | .panicked => .panicked
            | .fail => .fail
            | .ok vs => .ok (vs, expected)

/-- Specification-side base mapping of the v2 delta encoding (§4.5 of the
spec): for unsigned columns the varint base `b` becomes `-2·b - 1` when
negative and `2·b` otherwise; signed columns keep it unchanged. -/
def deltaBaseMap (signed : Bool) (base : Int) : Int :=
  if signed then base else if base < 0 then -2 * base - 1 else 2 * base

/-- Specification-side value recurrence of the v2 delta encoding with
magnitudes (§4.5 of the spec): starting from `prev`, each next value is the
previous one plus `sg` (the sign of the first delta) times the next
magnitude — in exact integer arithmetic, to be compared with the wrapping
decoder through `wrapU64`. -/
def deltaSpecAcc (prev : Int) (sg : Int) : List Nat → List Int
  | [] => []
  | m :: ms => (prev + sg * m) :: deltaSpecAcc (prev + sg * m) sg ms

/-!
src/compress.rs — the chunked decompressor.  The inner streaming decoders
(ZSTD / deflate) are opaque to every claim here; a `Decoder` is modelled by
its selected kind and the `Take`-bounded chunk payload it was opened over.
-/

inductive CompressionKind where
  | NONE | ZLIB | ZSTD | SNAPPY | LZO | LZ4
deriving DecidableEq, Repr

/-- `compress::Error` (src/compress.rs lines 12–22).  Note: there is no
`InvalidMetadata` variant in this enum. -/
inductive CompressError where
  | io : CompressError
  | unsupportedCompression (kind : CompressionKind) : CompressError
  | expectedLenMismatch (a b : Nat) : CompressError
  | invalidState : CompressError
deriving DecidableEq, Repr

structure Decoder where
  kind : CompressionKind
  chunk : List Nat
deriving DecidableEq, Repr

structure Decompressor where
  decoder : Option Decoder
  compression : CompressionKind
  remaining : Nat
deriving DecidableEq, Repr

/-- Wrapping `u64` subtraction (release profile), as in
`len - (chunk_len + 3)`. -/
def wrapU64Sub (a b : Nat) : Nat := (((a : Int) - (b : Int)) % (2 ^ 64 : Int)).toNat

/-- `Decompressor::read_header` (src/compress.rs lines 56–67): three header
bytes at the current position; `read_exact` fails with an I/O error when
fewer than three bytes remain.  Bit 0 of the first byte is the
`is_original` flag and the remaining 23 bits are the chunk length. -/
def readHeaderBytes (file : List Nat) (pos : Nat) : Option (Bool × Nat) :=
  match file.drop pos with
  | b0 :: b1 :: b2 :: _ => some (b0 % 2 = 1, (b2 <<< 15) ||| (b1 <<< 7) ||| (b0 >>> 1))
  | _ => none

/-- `Decompressor::open_decoder` (src/compress.rs lines 69–87): dispatch on
the compression kind; any kind outside {ZSTD, ZLIB, NONE} hits the
`panic!`-style unreachable arm. -/
def openDecoder (chunk : List Nat) (compression : CompressionKind) : POr Decoder :=
  match compression with
  | .ZSTD => .ok ⟨.ZSTD, chunk⟩
  | .ZLIB => .ok ⟨.ZLIB, chunk⟩
  | .NONE => .ok ⟨.NONE, chunk⟩
  | _ => .panicked

/-- `Decompressor::open` (src/compress.rs lines 31–54).  Reads the first
chunk header of the window `[pos, pos + len)`, opens a decoder over the
`Take(chunk_len)`-bounded payload and sets
`remaining = len - (chunk_len + 3)` — a wrapping `u64` subtraction with no
validation whatsoever against the window length. -/
def Decompressor.open' (file : List Nat) (compression : CompressionKind) (pos len : Nat) :
    POr (Except CompressError Decompressor) :=
  match readHeaderBytes file pos with
  | none => .ok (.error .io)
  | some (is_original, chunk_len) =>
    let chunk_compression := if is_original then CompressionKind.NONE else compression
    let chunk := (file.drop (pos + 3)).take chunk_len
    match openDecoder chunk chunk_compression with
    | .panicked => .panicked
    | .ok d => .ok (.ok ⟨some d, compression, wrapU64Sub len (chunk_len + 3)⟩)

/-- Does an `open` result carry an error (of any kind)?  Used to state that
the oversized-chunk case does not fail. -/
def openFailed (r : POr (Except CompressError Decompressor)) : Bool :=
  match r with
  | .ok (.error _) => true
  | _ => false

/-!
src/parser.rs — `Error`, the dictionary-column branch of
`OrcFile::read_column`, and the `MappedRows` iterator.
-/

/-- `parser::Error` (src/parser.rs lines 24–50). -/
inductive OrcError where
  | io : OrcError
  | protobuf : OrcError
  | compress (e : CompressError) : OrcError
  | unsupportedType : OrcError
  | invalidState : OrcError
  | invalidMetadata : OrcError
  | invalidColumnIndex (i : Nat) : OrcError
  | invalidValue (stripe_index column_index row_index : Nat) : OrcError
  | invalidIntegerEncoding : OrcError
  | invalidDictionarySize (expected actual : Nat) : OrcError
deriving DecidableEq, Repr

/-- The `Utf8Dictionary` branch of `OrcFile::read_column` (src/parser.rs
lines 339–403), parametrized by the results of its four stream reads, which
it sequences in source order (PRESENT, DATA, LENGTH, DICTIONARY_DATA).
After all reads succeed it compares the declared `dictionary_size` (a `u32`)
with `lengths.len() as u32` — i.e. the entry count truncated modulo
`2^32` — and fails with `InvalidDictionarySize` on mismatch, otherwise
materializes the column. -/
def readColumnUtf8Dictionary (present : Option (Except OrcError (List Nat)))
    (dataRes lengthsRes dictRes : Except OrcError (List Nat)) (dictionary_size : Nat) :
    Except OrcError Column :=
  match present with
  | some (.error e) => .error e
  | _ =>
    match dataRes with
    | .error e => .error e
    | .ok data =>
      match lengthsRes with
      | .error e => .error e
      | .ok lengths =>
        match dictRes with
        | .error e => .error e
        | .ok dictionary_bytes =>
          if dictionary_size ≠ lengths.length % 2 ^ 32 then
            .error (.invalidDictionarySize dictionary_size (lengths.length % 2 ^ 32))
          else
            .ok (Column.make_utf8_dictionary_column
              (match present with | some (.ok nrs) => some nrs | _ => none)
              data dictionary_bytes lengths)

/-- The environment of a `MappedRows` iterator: the per-stripe row counts,
the underlying `read_column` operation, the selected column ids, the
user-supplied mapping function, and `E::from` for the library error type. -/
structure MREnv (T E : Type) where
  rowCounts : List Nat
  readColumn : Nat → Nat → Except OrcError Column
  columns : List Nat
  f : List Value → Except E T
  inj : OrcError → E

/-- The mutable cursor of `MappedRows`. -/
structure MRState where
  data : List Column
  current_stripe : Nat
  current_row : Nat
deriving DecidableEq, Repr

/-- One `next()` outcome: either a panic propagated from `Column::get`, or
an optional item plus the successor state. -/
inductive MRResult (T E : Type) where
  | panicked : MRResult T E
  | yield (item : Option (Except E T)) (s : MRState) : MRResult T E

/-- The column-materialization loop at the top of a stripe (src/parser.rs
lines 740–752): push each decoded column; on the first error stop, keeping
the columns pushed so far. -/
def materializeLoop {T E : Type} (env : MREnv T E) (stripeIdx : Nat) :
    List Nat → List Column → List Column × Option OrcError
  | [], acc => (acc, none)
  | i :: rest, acc =>
    match env.readColumn stripeIdx i with
    | .ok c => materializeLoop env stripeIdx rest (acc ++ [c])
    | .error e => (acc, some e)

/-- Outcome of the per-row value-gathering loop. -/
inductive GatherRes where
  | panicked : GatherRes
  | invalid (column_index : Nat) : GatherRes
  | ok (values : List Value) : GatherRes
deriving DecidableEq, Repr

/-- The value-gathering loop of `MappedRows::next` (src/parser.rs lines
754–771): walk the materialized columns zipped with the selected ids; the
first `get` returning `None` aborts with that column's id. -/
def gatherValues (row : Nat) : List (Column × Nat) → GatherRes
  | [] => .ok []
  | (c, ci) :: rest =>
    match c.get row with
    | .panicked => .panicked
    | .ok none => .invalid ci
    | .ok (some v) =>
      match gatherValues row rest with
      | .ok vs => .ok (v :: vs)
      | r => r

/-- `MappedRows::next` (src/parser.rs lines 728–777).  Past the last stripe:
`None`.  Past the last row of a stripe: clear the decoded columns, advance
to the next stripe and recurse.  At row 0, materialize the selected columns
(an error yields one item and sets `current_stripe` past the end, making the
iterator terminal).  Then gather one value per column (`get` returning
`None` yields an `InvalidValue` item and is likewise terminal), advance the
row, and yield the mapping function's result — which may itself be an error,
without terminating iteration. -/
def mrNext {T E : Type} (env : MREnv T E) (s : MRState) : MRResult T E :=
  if env.rowCounts.length ≤ s.current_stripe then .yield none s
  else
    let rc := env.rowCounts.getD s.current_stripe 0
    if rc ≤ s.current_row then
      mrNext env ⟨[], s.current_stripe + 1, 0⟩
    else
      let mat :=
        if s.current_row = 0 then materializeLoop env s.current_stripe env.columns s.data
        else (s.data, none)
      match mat.2 with
      | some e =>
        .yield (some (.error (env.inj e))) ⟨mat.1, env.rowCounts.length, s.current_row⟩
      | none =>
        match gatherValues s.current_row (mat.1.zip env.columns) with
        | .panicked => .panicked
        | .invalid ci =>
          .yield (some (.error (env.inj (.invalidValue s.current_stripe ci s.current_row))))
            ⟨mat.1, env.rowCounts.length, s.current_row⟩
        | .ok vals =>
          .yield (some (env.f vals)) ⟨mat.1, s.current_stripe, s.current_row + 1⟩
termination_by env.rowCounts.length - s.current_stripe

/-!
Helper lemmas about the wrapping-arithmetic helpers.
-/

theorem wrapU64_coe (x : Int) : ((wrapU64 x : Nat) : Int) = x % (2 ^ 64 : Int) := by
  unfold wrapU64
  exact Int.toNat_of_nonneg (Int.emod_nonneg x (by norm_num))

theorem wrapU64_congr {x y : Int} (h : x % (2 ^ 64 : Int) = y % (2 ^ 64 : Int)) :
    wrapU64 x = wrapU64 y := by
  unfold wrapU64
  rw [h]

theorem toI64_emod (n : Nat) : toI64 n % (2 ^ 64 : Int) = (n : Int) % (2 ^ 64 : Int) := by
  unfold toI64
  split
  · rfl
  · rw [show ((n : Int) - 2 ^ 64) = (n : Int) + 2 ^ 64 * (-1) by ring, Int.add_mul_emod_self_left]

theorem wrapU64_step (x d : Int) : wrapU64 (toI64 (wrapU64 x) + d) = wrapU64 (x + d) := by
  apply wrapU64_congr
  rw [Int.add_emod, Int.add_emod x d, toI64_emod, wrapU64_coe,
    Int.emod_emod_of_dvd _ dvd_rfl]

theorem wrapU64_step_mul (x sg : Int) (m : Nat) :
    wrapU64 (toI64 (wrapU64 x) + sg * toI64 m) = wrapU64 (x + sg * m) := by
  apply wrapU64_congr
  rw [Int.add_emod, Int.add_emod x (sg * m), toI64_emod, wrapU64_coe,
    Int.emod_emod_of_dvd _ dvd_rfl, Int.mul_emod sg (toI64 m), toI64_emod,
    Int.mul_emod sg (m : Int)]

theorem wrapU64_of_lt {n : Nat} (h : n < 2 ^ 64) : wrapU64 ((n : Int)) = n := by
  unfold wrapU64
  rw [Int.emod_eq_of_lt (by positivity) (by exact_mod_cast h)]
  exact Int.toNat_natCast n

theorem wrapI64_eq_self {x : Int} (h1 : -(2 ^ 63) ≤ x) (h2 : x < 2 ^ 63) : wrapI64 x = x := by
  unfold wrapI64
  rw [Int.emod_eq_of_lt (by omega) (by omega)]
  omega

/-!
C2 — the present-writer invariant.
-/

/-- Folding any bit sequence through `piwWriteBit` preserves the row count,
adds one null-run entry per present bit, and preserves the defect
`current_total - (null_runs.sum + null_runs.length)`. -/
theorem piwWriteBit_spec (w : PresentInfoWriter) (b : Bool) :
    (piwWriteBit w b).row_count = w.row_count ∧
    (piwWriteBit w b).null_runs.length = w.null_runs.length + (if b then 1 else 0) ∧
    (piwWriteBit w b).current_total + w.null_runs.sum + w.null_runs.length
      = w.current_total + (piwWriteBit w b).null_runs.sum
        + (piwWriteBit w b).null_runs.length := by
  cases b <;> simp [piwWriteBit] <;> omega

theorem piwFoldBits (l : List Nat) (p : Nat → Bool) (w : PresentInfoWriter) :
    (l.foldl (fun w i => piwWriteBit w (p i)) w).row_count = w.row_count ∧
    (l.foldl (fun w i => piwWriteBit w (p i)) w).null_runs.length
      = w.null_runs.length + (l.filter p).length ∧
    (l.foldl (fun w i => piwWriteBit w (p i)) w).current_total
        + w.null_runs.sum + w.null_runs.length
      = w.current_total + (l.foldl (fun w i => piwWriteBit w (p i)) w).null_runs.sum
        + (l.foldl (fun w i => piwWriteBit w (p i)) w).null_runs.length := by
  induction l generalizing w with
  | nil => simp
  | cons a l ih =>
    have hb := piwWriteBit_spec w (p a)
    have h := ih (piwWriteBit w (p a))
    simp only [List.foldl_cons, List.filter_cons]
    cases hp : p a <;> simp [hp] at hb h ⊢ <;> omega

theorem piwWriteByte_spec (w : PresentInfoWriter) (b : Nat) :
    (piwWriteByte w b).row_count = w.row_count ∧
    (piwWriteByte w b).null_runs.length = w.null_runs.length + byteOnes b ∧
    (piwWriteByte w b).current_total + w.null_runs.sum + w.null_runs.length
      = w.current_total + (piwWriteByte w b).null_runs.sum
        + (piwWriteByte w b).null_runs.length :=
  piwFoldBits (List.range 8) (fun i => b &&& (1 <<< (7 - i)) != 0) w

theorem piwWrite_spec (bytes : List Nat) (w : PresentInfoWriter) :
    (piwWrite w bytes).row_count = w.row_count ∧
    (piwWrite w bytes).null_runs.length = w.null_runs.length + presentCount bytes ∧
    (piwWrite w bytes).current_total + w.null_runs.sum + w.null_runs.length
      = w.current_total + (piwWrite w bytes).null_runs.sum
        + (piwWrite w bytes).null_runs.length := by
  induction bytes generalizing w with
  | nil => simp [piwWrite, presentCount]
  | cons b bytes ih =>
    have hb := piwWriteByte_spec w b
    have h := ih (piwWriteByte w b)
    simp only [piwWrite, List.foldl_cons, presentCount, List.map_cons, List.sum_cons] at h hb ⊢
    omega

/-- C2: for every decoded PRESENT bit stream fed to the present writer for a
stripe with `row_count` rows, provided the rows accounted for (present bits
plus their preceding null bits, i.e. `current_total`) do not exceed
`row_count`, the null-run vector returned by `into_inner` — including the
trailing entry — sums, together with the number of present bits, to exactly
`row_count`. -/
theorem c2_present_null_run_sum (bytes : List Nat) (rc : Nat)
    (h : (piwWrite (piwNew rc) bytes).current_total ≤ rc) :
    (piwIntoInner (piwWrite (piwNew rc) bytes)).sum + presentCount bytes = rc := by
  have hs := piwWrite_spec bytes (piwNew rc)
  have e1 : (piwNew rc).row_count = rc := rfl
  have e2 : (piwNew rc).null_runs.sum = 0 := rfl
  have e3 : (piwNew rc).null_runs.length = 0 := rfl
  have e4 : (piwNew rc).current_total = 0 := rfl
  rw [e1, e2, e3, e4] at hs
  obtain ⟨h1, h2, h3⟩ := hs
  unfold piwIntoInner
  rw [List.sum_append]
  simp only [List.sum_cons, List.sum_nil, h1]
  omega

/-- C2 witness: the byte `0b10100000` for an 8-row stripe: null runs
`[0, 1, 5]`, 2 present rows, and `0 + 1 + 5 + 2 = 8`. -/
theorem c2_present_null_run_sum_witness :
    (piwIntoInner (piwWrite (piwNew 8) [160])).sum + presentCount [160] = 8 :=
  c2_present_null_run_sum [160] 8 (by decide)

/-!
C5 — the decompressor performs no chunk-length-vs-window validation.
-/

/-- C5 counterexample: the window `[0, 3)` of the file `[2, 0, 0]` holds
exactly one chunk header declaring a chunk of length 1, so the chunk plus
its 3-byte header exceeds the 3-byte window; the claim says `open` must
fail with `InvalidMetadata`, but it does not fail at all (indeed
`compress::Error` has no `InvalidMetadata` variant to fail with). -/
theorem c5_decompressor_window_counterexample :
    readHeaderBytes [2, 0, 0] 0 = some (false, 1) ∧ (3 : Nat) < 1 + 3 ∧
    openFailed (Decompressor.open' [2, 0, 0] CompressionKind.NONE 0 3) = false := by
  decide

/-- C5 amended: when the first chunk header of the window declares
`chunk_len` with `chunk_len + 3 > len`, `Decompressor::open` does not fail:
it returns a decompressor whose `remaining` counter is the wrapping `u64`
subtraction `len + 2^64 - (chunk_len + 3)` — strictly larger than the
window itself — and whose inner decoder is bounded only by
`Take(chunk_len)`, not by the window. -/
theorem c5_decompressor_window_amended (file : List Nat) (compression : CompressionKind)
    (pos len : Nat) (is_original : Bool) (chunk_len : Nat)
    (hh : readHeaderBytes file pos = some (is_original, chunk_len))
    (hover : len < chunk_len + 3) (hcl : chunk_len + 3 < 2 ^ 64)
    (hsup : compression = .NONE ∨ compression = .ZLIB ∨ compression = .ZSTD) :
    Decompressor.open' file compression pos len =
      .ok (.ok ⟨some ⟨(if is_original then CompressionKind.NONE else compression),
        (file.drop (pos + 3)).take chunk_len⟩, compression,
        len + 2 ^ 64 - (chunk_len + 3)⟩) ∧
    len < len + 2 ^ 64 - (chunk_len + 3) := by
  have hrem : wrapU64Sub len (chunk_len + 3) = len + 2 ^ 64 - (chunk_len + 3) := by
    unfold wrapU64Sub
    rw [show ((len : Int) - ((chunk_len + 3 : Nat) : Int))
          = ((len : Int) + 2 ^ 64 - ((chunk_len + 3 : Nat) : Int)) + 2 ^ 64 * (-1) by ring,
      Int.add_mul_emod_self_left,
      Int.emod_eq_of_lt (by push_cast; omega) (by push_cast; omega)]
    omega
  constructor
  · have hd : openDecoder ((file.drop (pos + 3)).take chunk_len)
        (if is_original then CompressionKind.NONE else compression)
        = .ok ⟨(if is_original then CompressionKind.NONE else compression),
               (file.drop (pos + 3)).take chunk_len⟩ := by
      rcases hsup with h | h | h <;> cases is_original <;> simp [openDecoder, h]
    unfold Decompressor.open'
    simp only [hh, hd, hrem]
  · omega

/-- C5 witness for the amended statement, at the counterexample input. -/
theorem c5_decompressor_window_witness :
    Decompressor.open' [2, 0, 0] CompressionKind.NONE 0 3 =
      .ok (.ok ⟨some ⟨CompressionKind.NONE, []⟩, CompressionKind.NONE,
        18446744073709551615⟩) := by
  have h := (c5_decompressor_window_amended [2, 0, 0] CompressionKind.NONE 0 3 false 1
    (by decide) (by decide) (by decide) (Or.inl rfl)).1
  simpa using h

/-!
C6 — the dictionary-size check of `read_column`.
-/

/-- C6 counterexample: a LENGTH stream decoding to `2^32` entries against a
declared `dictionary_size` of 0.  The declared size differs from the number
of decoded entries, so the claim requires `InvalidDictionarySize`, but the
source compares against `lengths.len() as u32 = 0` and materializes the
column. -/
theorem c6_dictionary_size_counterexample :
    readColumnUtf8Dictionary none (.ok []) (.ok (List.replicate (2 ^ 32) 0)) (.ok []) 0
      = .ok (Column.make_utf8_dictionary_column none [] [] (List.replicate (2 ^ 32) 0)) ∧
    (0 : Nat) ≠ (List.replicate (2 ^ 32) (0 : Nat)).length := by
  have key : ∀ L : List Nat, L.length = 2 ^ 32 →
      readColumnUtf8Dictionary none (.ok []) (.ok L) (.ok []) 0
        = .ok (Column.make_utf8_dictionary_column none [] [] L) ∧ (0 : Nat) ≠ L.length := by
    intro L hL
    constructor
    · show (if (0 : Nat) ≠ L.length % 2 ^ 32 then
            (Except.error (OrcError.invalidDictionarySize 0 (L.length % 2 ^ 32)) :
              Except OrcError Column)
          else .ok (Column.make_utf8_dictionary_column none [] [] L))
        = .ok (Column.make_utf8_dictionary_column none [] [] L)
      rw [hL, Nat.mod_self]
      simp
    · rw [hL]
      norm_num
  exact key (List.replicate (2 ^ 32) 0) (by rw [List.length_replicate])

/-- With all four stream reads succeeding, the dictionary branch reduces to
the size check. -/
theorem readColumnUtf8Dictionary_ok (present : Option (List Nat))
    (data lengths dict : List Nat) (dsize : Nat) :
    readColumnUtf8Dictionary (present.map Except.ok) (.ok data) (.ok lengths) (.ok dict) dsize
      = if dsize ≠ lengths.length % 2 ^ 32
        then .error (.invalidDictionarySize dsize (lengths.length % 2 ^ 32))
        else .ok (Column.make_utf8_dictionary_column present data dict lengths) := by
  cases present <;> rfl

/-- C6 amended: with all four stream reads succeeding, the dictionary branch
of `read_column` returns `InvalidDictionarySize { expected, actual }` if and
only if the declared `dictionary_size` differs from the LENGTH-entry count
*reduced modulo `2^32`* (the source truncates `lengths.len()` with `as u32`
before comparing); `expected` is the declared size and `actual` the
truncated count, and on equality the dictionary column is materialized.
For dictionaries with fewer than `2^32` entries this is exactly the original
claim. -/
theorem c6_dictionary_size_amended (present : Option (List Nat))
    (data lengths dict : List Nat) (dsize : Nat) :
    (readColumnUtf8Dictionary (present.map Except.ok) (.ok data) (.ok lengths) (.ok dict) dsize
       = .error (.invalidDictionarySize dsize (lengths.length % 2 ^ 32))
     ↔ dsize ≠ lengths.length % 2 ^ 32) ∧
    (dsize = lengths.length % 2 ^ 32 →
     readColumnUtf8Dictionary (present.map Except.ok) (.ok data) (.ok lengths) (.ok dict) dsize
       = .ok (Column.make_utf8_dictionary_column present data dict lengths)) ∧
    (∀ e a, readColumnUtf8Dictionary (present.map Except.ok) (.ok data) (.ok lengths) (.ok dict)
        dsize = .error (.invalidDictionarySize e a)
      → e = dsize ∧ a = lengths.length % 2 ^ 32) := by
  simp only [readColumnUtf8Dictionary_ok]
  by_cases h : dsize = lengths.length % 2 ^ 32
  · rw [if_neg (fun hc => hc h)]
    refine ⟨?_, fun _ => rfl, ?_⟩
    · constructor
      · intro he
        exact absurd he (by simp)
      · intro hne
        exact absurd h hne
    · intro e a he
      exact absurd he (by simp)
  · rw [if_pos h]
    refine ⟨⟨fun _ => h, fun _ => rfl⟩, fun heq => absurd heq h, ?_⟩
    intro e a he
    simp only [Except.error.injEq, OrcError.invalidDictionarySize.injEq] at he
    exact ⟨he.1.symm, he.2.symm⟩

/-- C6 witness: a one-entry dictionary with matching declared size 1 is
materialized. -/
theorem c6_dictionary_size_witness :
    readColumnUtf8Dictionary none (.ok []) (.ok [3]) (.ok [97, 98, 99]) 1
      = .ok (Column.make_utf8_dictionary_column none [] [97, 98, 99] [3]) := by
  have h := (c6_dictionary_size_amended none [] [3] [97, 98, 99] 1).2.1 (by decide)
  simpa using h

/-!
C4 / C9 — the byte RLE state machine.
-/

/-- C4: from `AwaitingControl`, a control byte `C < 128` emits the next
input byte repeated `C + 3` times, and a control byte `128 ≤ C ≤ 255` copies
the next `256 - C` input bytes through verbatim (here with all of them
available in the same buffer; `c9_byte_rle_chunking` covers split
buffers). -/
theorem c4_byte_rle_control :
    (∀ (c v : Nat) (rest : List Nat), c < 128 →
      bwRun .awaitingControl (c :: v :: rest)
        = ((bwRun .awaitingControl rest).1,
           List.replicate (c + 3) v ++ (bwRun .awaitingControl rest).2)) ∧
    (∀ (c : Nat) (buf : List Nat), 128 ≤ c → c ≤ 255 → 256 - c ≤ buf.length →
      bwRun .awaitingControl (c :: buf)
        = ((bwRun .awaitingControl (buf.drop (256 - c))).1,
           buf.take (256 - c) ++ (bwRun .awaitingControl (buf.drop (256 - c))).2)) := by
  constructor
  · intro c v rest hc
    rw [bwRun]
    simp only [if_pos hc]
    rw [bwRun]
  · intro c buf hc hc' hlen
    cases buf with
    | nil => simp at hlen; omega
    | cons b rest =>
      rw [bwRun]
      simp only [if_neg (by omega : ¬c < 128)]
      rw [bwRun]
      simp only [if_pos hlen]

/-- C4 witness: the canonical vector `[97, 0]` decodes to 100 zero bytes. -/
theorem c4_byte_rle_control_witness :
    bwRun .awaitingControl [97, 0] = (.awaitingControl, List.replicate 100 0) := by
  have h := c4_byte_rle_control.1 97 0 [] (by norm_num)
  rw [h, bwRun]
  simp

/-- Processing a concatenated buffer equals processing the two halves in
sequence: the state after the first half seeds the second, and the outputs
concatenate. -/
theorem bwRun_append (s : ByteWriterState) (xs ys : List Nat) :
    bwRun s (xs ++ ys)
      = ((bwRun (bwRun s xs).1 ys).1, (bwRun s xs).2 ++ (bwRun (bwRun s xs).1 ys).2) := by
  induction s, xs using bwRun.induct generalizing ys with
  | case1 s => simp [bwRun]
  | case2 b rest hb ih =>
    rw [List.cons_append, bwRun, if_pos hb, bwRun, if_pos hb]
    exact ih ys
  | case3 b rest hb ih =>
    rw [List.cons_append, bwRun, if_neg hb, bwRun, if_neg hb]
    exact ih ys
  | case4 n b rest ih =>
    have hL : bwRun (ByteWriterState.awaitingRepeated n) (b :: (rest ++ ys))
        = ((bwRun .awaitingControl (rest ++ ys)).1,
           List.replicate n b ++ (bwRun .awaitingControl (rest ++ ys)).2) := by
      rw [bwRun]
    have hR : bwRun (ByteWriterState.awaitingRepeated n) (b :: rest)
        = ((bwRun .awaitingControl rest).1,
           List.replicate n b ++ (bwRun .awaitingControl rest).2) := by
      rw [bwRun]
    rw [List.cons_append, hL, hR, ih ys]
    simp [List.append_assoc]
  | case5 n b rest hle ih =>
    have hle' : n ≤ (b :: (rest ++ ys)).length := by
      simp only [List.length_cons, List.length_append] at hle ⊢
      omega
    have hL : bwRun (ByteWriterState.literalRemaining n) (b :: (rest ++ ys))
        = ((bwRun .awaitingControl ((b :: (rest ++ ys)).drop n)).1,
           (b :: (rest ++ ys)).take n ++ (bwRun .awaitingControl ((b :: (rest ++ ys)).drop n)).2) := by
      rw [bwRun, if_pos hle']
    have hR : bwRun (ByteWriterState.literalRemaining n) (b :: rest)
        = ((bwRun .awaitingControl ((b :: rest).drop n)).1,
           (b :: rest).take n ++ (bwRun .awaitingControl ((b :: rest).drop n)).2) := by
      rw [bwRun, if_pos hle]
    have hd : (b :: (rest ++ ys)).drop n = (b :: rest).drop n ++ ys := by
      rw [show b :: (rest ++ ys) = (b :: rest) ++ ys from rfl, List.drop_append_eq_append_drop,
        Nat.sub_eq_zero_of_le hle, List.drop_zero]
    have ht : (b :: (rest ++ ys)).take n = (b :: rest).take n := by
      rw [show b :: (rest ++ ys) = (b :: rest) ++ ys from rfl, List.take_append_eq_append_take,
        Nat.sub_eq_zero_of_le hle, List.take_zero, List.append_nil]
    rw [List.cons_append, hL, hR, hd, ht, ih ys]
    simp [List.append_assoc]
  | case6 n b rest hgt =>
    have hR : bwRun (ByteWriterState.literalRemaining n) (b :: rest)
        = (ByteWriterState.literalRemaining (n - (b :: rest).length), b :: rest) := by
      rw [bwRun, if_neg hgt]
    rw [List.cons_append, hR]
    by_cases hys : n ≤ (b :: (rest ++ ys)).length
    · have hL : bwRun (ByteWriterState.literalRemaining n) (b :: (rest ++ ys))
          = ((bwRun .awaitingControl ((b :: (rest ++ ys)).drop n)).1,
             (b :: (rest ++ ys)).take n
               ++ (bwRun .awaitingControl ((b :: (rest ++ ys)).drop n)).2) := by
        rw [bwRun, if_pos hys]
      rw [hL]
      cases ys with
      | nil =>
        exfalso
        simp only [List.length_cons, List.length_append, List.length_nil] at hys hgt
        omega
      | cons y ys' =>
        have hys' : n - (b :: rest).length ≤ (y :: ys').length := by
          simp only [List.length_cons, List.length_append] at hys hgt ⊢
          omega
        have hR2 : bwRun (ByteWriterState.literalRemaining (n - (b :: rest).length)) (y :: ys')
            = ((bwRun .awaitingControl ((y :: ys').drop (n - (b :: rest).length))).1,
               (y :: ys').take (n - (b :: rest).length)
                 ++ (bwRun .awaitingControl ((y :: ys').drop (n - (b :: rest).length))).2) := by
          rw [bwRun, if_pos hys']
        rw [hR2]
        have hd : (b :: (rest ++ y :: ys')).drop n
            = (y :: ys').drop (n - (b :: rest).length) := by
          rw [show b :: (rest ++ y :: ys') = (b :: rest) ++ y :: ys' from rfl,
            List.drop_append_eq_append_drop, List.drop_of_length_le (by omega)]
          simp
        have ht : (b :: (rest ++ y :: ys')).take n
            = (b :: rest) ++ (y :: ys').take (n - (b :: rest).length) := by
          rw [show b :: (rest ++ y :: ys') = (b :: rest) ++ y :: ys' from rfl,
            List.take_append_eq_append_take, List.take_of_length_le (by omega)]
        rw [hd, ht]
        simp [List.append_assoc]
    · have hL : bwRun (ByteWriterState.literalRemaining n) (b :: (rest ++ ys))
          = (ByteWriterState.literalRemaining (n - (b :: (rest ++ ys)).length),
             b :: (rest ++ ys)) := by
        rw [bwRun, if_neg hys]
      rw [hL]
      cases ys with
      | nil =>
        have h0 : bwRun (ByteWriterState.literalRemaining (n - (b :: rest).length))
            ([] : List Nat)
            = (ByteWriterState.literalRemaining (n - (b :: rest).length), []) := by
          rw [bwRun]
        rw [h0]
        simp
      | cons y ys' =>
        have hys' : ¬n - (b :: rest).length ≤ (y :: ys').length := by
          simp only [List.length_cons, List.length_append] at hys hgt ⊢
          omega
        have hR2 : bwRun (ByteWriterState.literalRemaining (n - (b :: rest).length)) (y :: ys')
            = (ByteWriterState.literalRemaining
                 (n - (b :: rest).length - (y :: ys').length), y :: ys') := by
          rw [bwRun, if_neg hys']
        rw [hR2]
        refine Prod.ext ?_ rfl
        simp only [List.length_cons, List.length_append]
        congr 1
        omega

/-- C9: feeding any sequence of buffers to the byte RLE decoder one `write`
call at a time — i.e. any partition of the input into consecutive chunks —
produces exactly the same final state and the same decoded output bytes as
feeding the concatenated input in a single call: the decoder state carries
over between calls. -/
theorem c9_byte_rle_chunking (chunks : List (List Nat)) :
    bwRunChunks .awaitingControl chunks = bwRun .awaitingControl chunks.flatten := by
  suffices h : ∀ (s : ByteWriterState) (cs : List (List Nat)),
      bwRunChunks s cs = bwRun s cs.flatten from h _ chunks
  intro s cs
  induction cs generalizing s with
  | nil => simp [bwRunChunks, bwRun]
  | cons c cs ih =>
    rw [List.flatten_cons, bwRunChunks, ih (bwRun s c).1, bwRun_append]

/-!
C8 — integer RLE v1 frames.
-/

/-- A decoded varint value is a `u64`: the accumulator only ever holds
values below `2^64`. -/
theorem decodeVarU64Go_lt :
    ∀ (src : List Nat) (shift acc : Nat), acc < 2 ^ 64 →
      ∀ v l, decodeVarU64Go src shift acc = some (v, l) → v < 2 ^ 64 := by
  intro src
  induction src with
  | nil => intro shift acc hacc v l h; simp [decodeVarU64Go] at h
  | cons b rest ih =>
    intro shift acc hacc v l h
    rw [decodeVarU64Go] at h
    have hacc' : acc ||| ((b &&& 127) <<< shift % 2 ^ 64) < 2 ^ 64 :=
      Nat.bitwise_lt_two_pow hacc (Nat.mod_lt _ (by norm_num))
    by_cases h1 : b &&& 128 = 0
    · simp only [if_pos h1] at h
      obtain ⟨rfl, rfl⟩ := Prod.mk.injEq .. ▸ Option.some.injEq .. ▸ h
      · exact hacc'
    · simp only [if_neg h1] at h
      by_cases h2 : shift + 7 > 63
      · simp only [if_pos h2] at h
        exact absurd h (by simp)
      · simp only [if_neg h2] at h
        exact ih (shift + 7) _ hacc' v l h

theorem decodeVarU64_lt {src : List Nat} {v l : Nat} (h : decodeVarU64 src = some (v, l)) :
    v < 2 ^ 64 :=
  decodeVarU64Go_lt src 0 0 (by norm_num) v l h

/-- The intv1 run loop started from the 64-bit representative of `x` emits
exactly the wrapped arithmetic progression `x, x + d, x + 2·d, …`. -/
theorem intv1Run_spec (d : Int) :
    ∀ (n : Nat) (x : Int), intv1Run (wrapU64 x) d n
      = (List.range n).map (fun k : Nat => wrapU64 (x + (k : Int) * d)) := by
  intro n
  induction n with
  | zero => intro x; simp [intv1Run]
  | succ n ih =>
    intro x
    rw [intv1Run, wrapU64_step, ih (x + d), List.range_succ_eq_map, List.map_cons, List.map_map]
    congr 1
    · norm_num
    · refine List.map_congr_left fun k _ => ?_
      simp only [Function.comp_apply]
      refine congrArg wrapU64 (by push_cast; ring)

/-- The absolute-offset literal loop of intv1 equals the stream-consuming
varint sequence of the specification. -/
theorem intv1Literals_eq_varintSeq :
    ∀ (n : Nat) (bytes : List Nat) (c : Nat),
      intv1Literals bytes c n = (varintSeq (bytes.drop c) n).map (fun p => (p.1, c + p.2)) := by
  intro n
  induction n with
  | zero => intro bytes c; simp [intv1Literals, varintSeq]
  | succ n ih =>
    intro bytes c
    rw [intv1Literals, varintSeq]
    cases hv : decodeVarU64 (bytes.drop c) with
    | none => simp
    | some p =>
      have hdr : (bytes.drop c).drop p.2 = bytes.drop (c + p.2) := by
        rw [List.drop_drop, Nat.add_comm]
      rw [Option.some_bind, Option.some_bind, ih bytes (c + p.2), hdr]
      cases hs : varintSeq (bytes.drop (c + p.2)) n with
      | none => simp
      | some q =>
        simp [Nat.add_assoc]

/-- C8: an intv1 frame with header byte `H < 128` is a constant-delta run of
`H + 3` values: the varint base, then successive additions of the signed
8-bit delta, wrapping in 64-bit two's complement; a frame with `H ≥ 128` is
a block of `256 - H` literal varints.  The `signed` flag does not affect
decoding. -/
theorem c8_intv1_frames :
    (∀ (first second : Nat) (tail : List Nat) (base read_len : Nat) (sgn : Bool),
      first < 128 →
      decodeVarU64 tail = some (base, read_len) →
      intv1AppendNext (first :: second :: tail) sgn
        = some ((List.range (first + 3)).map
                  (fun k : Nat => wrapU64 ((base : Int) + (k : Int) * toI8 second)),
                read_len + 2)) ∧
    (∀ (first : Nat) (tail : List Nat) (sgn : Bool), 128 ≤ first →
      intv1AppendNext (first :: tail) sgn
        = (varintSeq tail (256 - first)).map (fun p => (p.1, 1 + p.2))) := by
  constructor
  · intro first second tail base read_len sgn hf hv
    simp only [intv1AppendNext, if_pos hf, List.drop_succ_cons, List.drop_zero, hv]
    have hb := decodeVarU64_lt hv
    conv_lhs => rw [show base = wrapU64 ((base : Int)) from (wrapU64_of_lt hb).symm]
    rw [intv1Run_spec]
  · intro first tail sgn hf
    simp only [intv1AppendNext, if_neg (by omega : ¬first < 128)]
    rw [intv1Literals_eq_varintSeq]
    simp only [List.drop_succ_cons, List.drop_zero]

/-- C8 witness: the canonical delta-run vector `[0x61, 0xFF, 0x64]` decodes
to `[100, 99, …, 1]`. -/
theorem c8_intv1_frames_witness :
    intv1AppendNext [0x61, 0xFF, 0x64] true
      = some ((List.range 100).map (fun k => 100 - k), 3) := by
  have h := c8_intv1_frames.1 0x61 0xFF [0x64] 100 1 true (by norm_num) (by decide)
  rw [h]
  decide

/-!
C3 — the intv2 delta sub-encoding.
-/

/-- The constant-delta loop started from the 64-bit representative of `x`
emits the wrapped progression `x + d, x + 2·d, …`. -/
theorem constDeltaLoop_spec (d : Int) :
    ∀ (n : Nat) (x : Int), constDeltaLoop (wrapU64 x) d n
      = (List.range n).map (fun k : Nat => wrapU64 (x + ((k : Int) + 1) * d)) := by
  intro n
  induction n with
  | zero => intro x; simp [constDeltaLoop]
  | succ n ih =>
    intro x
    rw [constDeltaLoop]
    simp only [wrapU64_step]
    rw [ih (x + d), List.range_succ_eq_map, List.map_cons, List.map_map]
    congr 1
    · refine congrArg wrapU64 (by push_cast; ring)
    · refine List.map_congr_left fun k _ => ?_
      simp only [Function.comp_apply]
      refine congrArg wrapU64 (by push_cast; ring)

/-- The magnitude loop of the delta decoder, started from the 64-bit
representative of `x` at bit-index `i`, emits exactly the wrapped values of
the specification recurrence over the magnitudes it reads. -/
theorem deltaLoop_spec (payload : List Nat) (w : Nat) (sg : Int) :
    ∀ (mags : List Nat) (i : Nat) (x : Int),
      (∀ k, k < mags.length → readU64BeBits payload ((i + k) * w) w = mags.get? k) →
      deltaLoop payload w sg (wrapU64 x) i mags.length
        = some ((deltaSpecAcc x sg mags).map wrapU64) := by
  intro mags
  induction mags with
  | nil => intro i x _; simp [deltaLoop, deltaSpecAcc]
  | cons m ms ih =>
    intro i x h
    have h0 : readU64BeBits payload (i * w) w = some m := by
      have := h 0 (by simp)
      simpa using this
    have h' : ∀ k, k < ms.length → readU64BeBits payload ((i + 1 + k) * w) w = ms.get? k := by
      intro k hk
      have := h (k + 1) (by simpa using Nat.succ_lt_succ hk)
      rw [show i + (k + 1) = i + 1 + k by omega] at this
      simpa using this
    show deltaLoop payload w sg (wrapU64 x) i (ms.length + 1) = _
    rw [deltaLoop, h0, Option.some_bind]
    simp only [wrapU64_step_mul]
    rw [ih (i + 1) (x + sg * m) h']
    simp [deltaSpecAcc]

/-- C3: a well-formed intv2 delta frame (tag `0b11`) decodes to the mapped
base, then base + first-delta, then — when the header width is zero —
repeated additions of the first delta, otherwise one `width`-bit magnitude
per remaining entry applied with the sign of the first delta; all in
wrapping 64-bit arithmetic.  When `signed = false` the varint base `b` is
first mapped to `-2·b - 1` (negative) or `2·b` (non-negative)
(`deltaBaseMap`). -/
theorem c3_intv2_delta (bytes : List Nat) (sgn : Bool) (w len : Nat) (base delta : Int)
    (rl1 rl2 : Nat) (mags : List Nat)
    (hph : parseHeader bytes = .ok (.delta w len, 2))
    (hb : decodeVarI64 (bytes.drop 2) = some (base, rl1))
    (hd : decodeVarI64 (bytes.drop (2 + rl1)) = some (delta, rl2))
    (hlen2 : 2 ≤ len)
    (hbytes : 2 + rl1 + rl2 + bitsToBytes (w * (len - 2)) ≤ bytes.length)
    (hm : mags.length = len - 2)
    (hr : ∀ k, k < len - 2 →
      readU64BeBits (bytes.drop (2 + rl1 + rl2)) (k * w) w = mags.get? k) :
    intv2AppendNext bytes sgn
      = .ok (wrapU64 (deltaBaseMap sgn base)
             :: wrapU64 (deltaBaseMap sgn base + delta)
             :: (if w = 0 then
                   (List.range (len - 2)).map
                     (fun k : Nat =>
                       wrapU64 (deltaBaseMap sgn base + delta + ((k : Int) + 1) * delta))
                 else (deltaSpecAcc (deltaBaseMap sgn base + delta) delta.sign mags).map wrapU64),
             2 + rl1 + rl2 + bitsToBytes (w * (len - 2))) := by
  have hbm : (if sgn then base else if base < 0 then -base * 2 - 1 else base * 2)
      = deltaBaseMap sgn base := by
    unfold deltaBaseMap
    cases sgn
    · simp only [if_false, Bool.false_eq_true]
      split <;> ring
    · simp
  simp only [intv2AppendNext, hph, hb, hd, Option.some_bind, hbm]
  rw [if_neg (by omega : ¬bytes.length < 2 + rl1 + rl2 + bitsToBytes (w * (len - 2)))]
  by_cases hw : w = 0
  · rw [if_pos hw, if_pos hw]
    rw [constDeltaLoop_spec]
  · rw [if_neg hw, if_neg hw, ← hm]
    have hspec := deltaLoop_spec (bytes.drop (2 + rl1 + rl2)) w delta.sign mags 0
      (deltaBaseMap sgn base + delta) (by
        intro k hk
        rw [Nat.zero_add]
        exact hr k (by omega))
    rw [hspec]

/-- C3 witness: the canonical delta vector decodes to the first ten
primes. -/
theorem c3_intv2_delta_witness :
    intv2AppendNext [0xC6, 0x09, 0x02, 0x02, 0x22, 0x42, 0x42, 0x46] false
      = .ok ([2, 3, 5, 7, 11, 13, 17, 19, 23, 29], 8) := by
  have h := c3_intv2_delta [0xC6, 0x09, 0x02, 0x02, 0x22, 0x42, 0x42, 0x46] false 4 10 1 1 1 1
    [2, 2, 4, 2, 4, 2, 4, 6] (by decide) (by decide) (by decide) (by decide) (by decide)
    (by decide) (by decide)
  rw [h]
  decide

/-!
C1 — `Column::get` bounds behaviour.
-/

/-- C1 counterexample: a `Utf8Direct` column materialized for a stripe with
0 rows (`make_utf8_direct_column` of empty streams).  The claim requires
`get(0)` to return `None` since `0 ≥ row_count`, but the source indexes
`indices[0]` without a bounds check and panics. -/
theorem c1_column_get_counterexample :
    (Column.make_utf8_direct_column none [] []).get 0 = .panicked ∧
    (POr.panicked : POr (Option Value)) ≠ .ok none := by
  decide

/-- C1 amended: `Bool` and `U64` columns satisfy the claim — `get(r)` is
`Some` for `r < row_count` and `None` for `r ≥ row_count` (with `row_count`
being the stored count for `Bool`, bounded by the bit-vector lengths, and
`values.len()` for `U64`) — and, the model being a pure function, repeated
calls agree.  The `Utf8Direct` / `Utf8Dictionary` variants do not bounds
check: `get(r)` for `r` at or beyond the row count (`indices.len()` resp.
`data.len()`) panics instead of returning `None`.  Within bounds: a `-1`
sentinel (index start resp. dictionary code) yields `Some(Null)`; a
non-negative entry whose span arithmetic stays in `u64` range yields `Some`
of the spanned string when the span (after an in-range dictionary-code
lookup, for the dictionary variant) lies inside the byte buffer and holds
valid UTF-8, and panics when the dictionary code has no entry, the span
exceeds the buffer, or the bytes are not valid UTF-8. -/
theorem c1_column_get_amended :
    (∀ (rc : Nat) (values : List Bool) (nulls : Option (List Bool)) (r : Nat),
      rc ≤ values.length → (∀ ns, nulls = some ns → rc ≤ ns.length) →
      ((r < rc → ∃ v, (Column.bool rc values nulls).get r = .ok (some v)) ∧
       (rc ≤ r → (Column.bool rc values nulls).get r = .ok none))) ∧
    (∀ (values : List Nat) (nulls : Option (List Bool)) (r : Nat),
      (∀ ns, nulls = some ns → values.length ≤ ns.length) →
      ((r < values.length → ∃ v, (Column.u64 values nulls).get r = .ok (some v)) ∧
       (values.length ≤ r → (Column.u64 values nulls).get r = .ok none))) ∧
    (∀ (data : List Nat) (indices : List (Int × Nat)) (r : Nat),
      indices.length ≤ r → (Column.utf8Direct data indices).get r = .panicked) ∧
    (∀ (data : List Int) (dict : List Nat) (indices : List (Nat × Nat)) (r : Nat),
      data.length ≤ r → (Column.utf8Dictionary data dict indices).get r = .panicked) ∧
    (∀ (data : List Nat) (indices : List (Int × Nat)) (r : Nat) (start : Int) (len : Nat),
      indices.get? r = some (start, len) →
      ((start = -1 → (Column.utf8Direct data indices).get r = .ok (some .null)) ∧
       (0 ≤ start → start.toNat + len < 2 ^ 64 →
        ((start.toNat + len ≤ data.length ∧
            validUtf8 ((data.drop start.toNat).take len) = true →
          (Column.utf8Direct data indices).get r
            = .ok (some (.utf8 ((data.drop start.toNat).take len)))) ∧
         (data.length < start.toNat + len ∨
            validUtf8 ((data.drop start.toNat).take len) = false →
          (Column.utf8Direct data indices).get r = .panicked))))) ∧
    (∀ (data : List Int) (dict : List Nat) (indices : List (Nat × Nat)) (r : Nat) (code : Int),
      data.get? r = some code →
      ((code = -1 → (Column.utf8Dictionary data dict indices).get r = .ok (some .null)) ∧
       (0 ≤ code → code < 2 ^ 63 →
        ((indices.get? code.toNat = none →
          (Column.utf8Dictionary data dict indices).get r = .panicked) ∧
         (∀ (start len : Nat), indices.get? code.toNat = some (start, len) →
          start + len < 2 ^ 64 →
          ((start + len ≤ dict.length ∧ validUtf8 ((dict.drop start).take len) = true →
            (Column.utf8Dictionary data dict indices).get r
              = .ok (some (.utf8 ((dict.drop start).take len)))) ∧
           (dict.length < start + len ∨ validUtf8 ((dict.drop start).take len) = false →
            (Column.utf8Dictionary data dict indices).get r = .panicked))))))) ∧
    (∀ (c : Column) (r : Nat), Column.get c r = Column.get c r) := by
  refine ⟨?_, ?_, ?_, ?_, ?_, ?_, fun _ _ => rfl⟩
  · intro rc values nulls r hv hn
    constructor
    · intro hr
      match nulls with
      | some ns =>
        have hns := hn ns rfl
        have h1 : ns.get? r = some (ns.get ⟨r, by omega⟩) := List.get?_eq_get _
        have h2 : values.get? r = some (values.get ⟨r, by omega⟩) := List.get?_eq_get _
        simp only [Column.get, if_pos hr, h1, h2]
        cases ns.get ⟨r, by omega⟩ <;> exact ⟨_, rfl⟩
      | none =>
        have h2 : values.get? r = some (values.get ⟨r, by omega⟩) := List.get?_eq_get _
        simp only [Column.get, if_pos hr, h2]
        exact ⟨_, rfl⟩
    · intro hr
      simp only [Column.get, if_neg (by omega : ¬r < rc)]
  · intro values nulls r hn
    constructor
    · intro hr
      match nulls with
      | some ns =>
        have hns := hn ns rfl
        have h1 : ns.get? r = some (ns.get ⟨r, by omega⟩) := List.get?_eq_get _
        simp only [Column.get, if_pos hr, h1]
        cases ns.get ⟨r, by omega⟩ <;> exact ⟨_, rfl⟩
      | none =>
        simp only [Column.get, if_pos hr]
        exact ⟨_, rfl⟩
    · intro hr
      simp only [Column.get, if_neg (by omega : ¬r < values.length)]
  · intro data indices r hr
    have h1 : indices.get? r = none := List.get?_eq_none.mpr hr
    simp only [Column.get, h1]
  · intro data dict indices r hr
    have h1 : data.get? r = none := List.get?_eq_none.mpr hr
    simp only [Column.get, h1]
  · intro data indices r start len hidx
    constructor
    · intro h
      simp only [Column.get, hidx, if_pos h]
    · intro h0 hlt
      have hne : ¬start = -1 := by omega
      have hs : i64ToU64 start = start.toNat := by
        unfold i64ToU64
        rw [Int.emod_eq_of_lt h0 (by omega)]
      have he : (start.toNat + len) % 2 ^ 64 = start.toNat + len := Nat.mod_eq_of_lt hlt
      have hsub : start.toNat + len - start.toNat = len := by omega
      constructor
      · rintro ⟨hspan, hval⟩
        simp only [Column.get, hidx, if_neg hne, hs, he, hsub]
        rw [if_pos ⟨by omega, hspan⟩, hval]
        rfl
      · intro hbad
        simp only [Column.get, hidx, if_neg hne, hs, he, hsub]
        rcases hbad with hlen | hval
        · rw [if_neg (fun hc => by omega)]
        · by_cases hspan : start.toNat + len ≤ data.length
          · rw [if_pos ⟨by omega, hspan⟩, hval]
            rfl
          · rw [if_neg (fun hc => hspan hc.2)]
  · intro data dict indices r code hcode
    constructor
    · intro h
      simp only [Column.get, hcode, if_pos h]
    · intro h0 h63
      have hne : ¬code = -1 := by omega
      have hs : i64ToU64 code = code.toNat := by
        unfold i64ToU64
        rw [Int.emod_eq_of_lt h0 (by omega)]
      constructor
      · intro hnone
        simp only [Column.get, hcode, if_neg hne, hs, hnone]
      · intro start len hidx hlt
        have he : (start + len) % 2 ^ 64 = start + len := Nat.mod_eq_of_lt hlt
        have hsub : start + len - start = len := by omega
        constructor
        · rintro ⟨hspan, hval⟩
          simp only [Column.get, hcode, if_neg hne, hs, hidx, he, hsub]
          rw [if_pos ⟨by omega, hspan⟩, hval]
          rfl
        · intro hbad
          simp only [Column.get, hcode, if_neg hne, hs, hidx, he, hsub]
          rcases hbad with hlen | hval
          · rw [if_neg (fun hc => by omega)]
          · by_cases hspan : start + len ≤ dict.length
            · rw [if_pos ⟨by omega, hspan⟩, hval]
              rfl
            · rw [if_neg (fun hc => hspan hc.2)]

/-- C1 witness for the amended statement: a one-row `Bool` column returns
`None` at row 1; an empty `Utf8Direct` column panics at row 0; and a
one-row `Utf8Dictionary` column resolves its in-range code to the spanned
string. -/
theorem c1_column_get_witness :
    (Column.bool 1 [true] none).get 1 = .ok none ∧
    (Column.utf8Direct [] []).get 0 = .panicked ∧
    (Column.utf8Dictionary [0] [104, 105] [(0, 2)]).get 0
      = .ok (some (.utf8 [104, 105])) := by
  refine ⟨?_, ?_, ?_⟩
  · exact (c1_column_get_amended.1 1 [true] none 1 (by decide)
      (fun ns h => by cases h)).2 (by decide)
  · exact c1_column_get_amended.2.2.1 [] [] 0 (by decide)
  · have h := ((c1_column_get_amended.2.2.2.2.2.1 [0] [104, 105] [(0, 2)] 0 0
      (by decide)).2 (by decide) (by decide)).2 0 2 (by decide) (by decide)
    exact h.1 (by decide)

/-!
C10 — the `Utf8Direct` index invariant.
-/

/-- Once `current_present_index` runs past the decoded lengths, the weaving
loop emits only `-1` sentinels. -/
theorem weaveCodes_all_null (lengths : List Nat) :
    ∀ (nrs : List Nat) (i : Nat), lengths.get? i = none →
      ∀ l ∈ weaveCodes lengths nrs i, l = (-1 : Int) := by
  intro nrs
  induction nrs with
  | nil => intro i _ l hl; simp [weaveCodes] at hl
  | cons nr rest ih =>
    intro i hi l hl
    have hi' : lengths.get? (i + 1) = none :=
      List.get?_eq_none.mpr (by have := List.get?_eq_none.mp hi; omega)
    simp only [weaveCodes, hi, List.append_nil, List.mem_append] at hl
    rcases hl with h | h
    · exact List.eq_of_mem_replicate h
    · exact ih (i + 1) hi' l h

/-- Every woven entry is the `-1` null sentinel or a non-negative decoded
length, and the non-null entries sum to at most the tail of the decoded
lengths. -/
theorem weaveCodes_spec (lengths : List Nat) (hv : ∀ v ∈ lengths, v < 2 ^ 63) :
    ∀ (nrs : List Nat) (i : Nat),
      (∀ l ∈ weaveCodes lengths nrs i, l = (-1 : Int) ∨ 0 ≤ l) ∧
      ((weaveCodes lengths nrs i).filter (fun x => x != -1)).sum
        ≤ (((lengths.drop i).sum : Nat) : Int) := by
  intro nrs
  induction nrs with
  | nil =>
    intro i
    refine ⟨fun l hl => by simp [weaveCodes] at hl, ?_⟩
    simp only [weaveCodes, List.filter_nil, List.sum_nil]
    positivity
  | cons nr rest ih =>
    intro i
    have hrep : (List.replicate nr (-1 : Int)).filter (fun x => x != -1) = [] := by
      refine List.filter_eq_nil.mpr fun a ha => ?_
      rw [List.eq_of_mem_replicate ha]
      simp
    cases hi : lengths.get? i with
    | none =>
      have hnull := weaveCodes_all_null lengths (nr :: rest) i hi
      refine ⟨fun l hl => Or.inl (hnull l hl), ?_⟩
      have hfil : (weaveCodes lengths (nr :: rest) i).filter (fun x => x != -1) = [] := by
        refine List.filter_eq_nil.mpr fun a ha => ?_
        rw [hnull a ha]
        simp
      rw [hfil, List.sum_nil]
      positivity
    | some v =>
      have hvv : v < 2 ^ 63 := hv v (List.get?_mem hi)
      have htv : toI64 v = (v : Int) := by
        unfold toI64
        rw [if_pos (by exact_mod_cast hvv)]
      have hkeep : ((v : Int) != -1) = true := bne_iff_ne.mpr (by omega)
      have hilt : i < lengths.length := by
        by_contra hge
        rw [List.get?_eq_none.mpr (by omega)] at hi
        exact absurd hi (by simp)
      have hval : lengths.get ⟨i, hilt⟩ = v := by
        have := List.get?_eq_get hilt
        rw [hi] at this
        exact (Option.some.injEq .. ▸ this.symm)
      have hdrop : lengths.drop i = v :: lengths.drop (i + 1) := by
        rw [List.drop_eq_get_cons hilt, hval]
      constructor
      · intro l hl
        simp only [weaveCodes, hi, List.mem_append, List.mem_singleton] at hl
        rcases hl with (h | h) | h
        · exact Or.inl (List.eq_of_mem_replicate h)
        · rw [h, htv]
          exact Or.inr (by positivity)
        · exact ((ih (i + 1)).1) l h
      · simp only [weaveCodes, hi, List.filter_append, hrep, List.nil_append, List.sum_append]
        rw [htv]
        simp only [List.filter_cons, hkeep, if_pos trivial, List.filter_nil, List.sum_cons,
          List.sum_nil]
        have := (ih (i + 1)).2
        rw [hdrop, List.sum_cons]
        push_cast at this ⊢
        omega

/-- The nonnull filtered sum of a sentinel-or-nonnegative list is
nonnegative. -/
theorem filterSum_nonneg {ls : List Int} (h : ∀ l ∈ ls, l = (-1 : Int) ∨ 0 ≤ l) :
    0 ≤ (ls.filter (fun x => x != -1)).sum := by
  refine List.sum_nonneg fun x hx => ?_
  obtain ⟨hmem, hne⟩ := List.mem_filter.mp hx
  rcases h x hmem with h1 | h1
  · exact absurd (bne_iff_ne.mp hne) (by rw [h1]; simp)
  · exact h1

/-- The index-building loop of `make_utf8_direct_column`, for any starting
cursor and entry list within `i64` range: entry count is preserved, null
sentinels map to `(-1, 0)`, and each non-null entry at position `i` gets the
cursor plus the sum of the earlier non-null lengths as its start, with its
own length as span length. -/
theorem buildDirectIndices_spec :
    ∀ (ls : List Int) (t : Int), 0 ≤ t →
      (∀ l ∈ ls, l = (-1 : Int) ∨ 0 ≤ l) →
      t + (ls.filter (fun x => x != -1)).sum < 2 ^ 63 →
      (buildDirectIndices ls t).length = ls.length ∧
      ∀ i, i < ls.length →
        (ls.get? i = some (-1) → (buildDirectIndices ls t).get? i = some (-1, 0)) ∧
        (∀ l, ls.get? i = some l → l ≠ -1 →
          (buildDirectIndices ls t).get? i
            = some (t + ((ls.take i).filter (fun x => x != -1)).sum, l.toNat)) := by
  intro ls
  induction ls with
  | nil =>
    intro t _ _ _
    exact ⟨rfl, fun i hi => absurd hi (by simp)⟩
  | cons l0 rest ih =>
    intro t ht hmem hsum
    by_cases h0 : l0 = -1
    · have hfil : (l0 :: rest).filter (fun x => x != -1) = rest.filter (fun x => x != -1) := by
        rw [List.filter_cons, if_neg (by rw [h0]; simp)]
      rw [hfil] at hsum
      have hrec := ih t ht (fun l hl => hmem l (List.mem_cons_of_mem _ hl)) hsum
      subst h0
      constructor
      · simp [buildDirectIndices, hrec.1]
      · intro i hi
        match i with
        | 0 =>
          refine ⟨fun _ => ?_, fun l hl hlne => ?_⟩
          · simp [buildDirectIndices]
          · rw [List.get?_cons_zero] at hl
            exact absurd (Option.some.inj hl).symm hlne
        | i + 1 =>
          have hi' : i < rest.length := by simpa using hi
          have hc := hrec.2 i hi'
          have hbc : (buildDirectIndices (-1 :: rest) t).get? (i + 1)
              = (buildDirectIndices rest t).get? i := by
            simp [buildDirectIndices]
          have htk : ((-1 :: rest).take (i + 1)).filter (fun x => x != -1)
              = (rest.take i).filter (fun x => x != -1) := by
            rw [List.take_succ_cons, List.filter_cons, if_neg (by simp)]
          refine ⟨fun hl => ?_, fun l hl hlne => ?_⟩
          · rw [hbc]
            exact hc.1 (by simpa using hl)
          · rw [hbc, htk]
            exact hc.2 l (by simpa using hl) hlne
    · have hpos : 0 ≤ l0 := (hmem l0 (List.mem_cons_self ..)).resolve_left h0
      have hfil : (l0 :: rest).filter (fun x => x != -1)
          = l0 :: rest.filter (fun x => x != -1) := by
        rw [List.filter_cons, if_pos (by simpa using bne_iff_ne.mpr h0)]
      rw [hfil, List.sum_cons] at hsum
      have hrestnn : 0 ≤ (rest.filter (fun x => x != -1)).sum :=
        filterSum_nonneg fun l hl => hmem l (List.mem_cons_of_mem _ hl)
      have hl0lt : l0 < 2 ^ 63 := by omega
      have hwrap : wrapI64 (t + l0) = t + l0 := wrapI64_eq_self (by omega) (by omega)
      have hrec := ih (t + l0) (by omega)
        (fun l hl => hmem l (List.mem_cons_of_mem _ hl)) (by omega)
      constructor
      · simp [buildDirectIndices, if_neg h0, hwrap, hrec.1]
      · intro i hi
        match i with
        | 0 =>
          refine ⟨fun hl => ?_, fun l hl hlne => ?_⟩
          · rw [List.get?_cons_zero] at hl
            exact absurd (Option.some.inj hl) h0
          · rw [List.get?_cons_zero] at hl
            have hll : l = l0 := (Option.some.inj hl).symm
            subst hll
            have hu : i64ToU64 l = l.toNat := by
              unfold i64ToU64
              rw [Int.emod_eq_of_lt hpos (by omega)]
            simp [buildDirectIndices, if_neg h0, hu]
        | i + 1 =>
          have hi' : i < rest.length := by simpa using hi
          have hc := hrec.2 i hi'
          have hbc : (buildDirectIndices (l0 :: rest) t).get? (i + 1)
              = (buildDirectIndices rest (wrapI64 (t + l0))).get? i := by
            simp [buildDirectIndices, if_neg h0]
          have htk : ((l0 :: rest).take (i + 1)).filter (fun x => x != -1)
              = l0 :: (rest.take i).filter (fun x => x != -1) := by
            rw [List.take_succ_cons, List.filter_cons, if_pos (by simpa using bne_iff_ne.mpr h0)]
          refine ⟨fun hl => ?_, fun l hl hlne => ?_⟩
          · rw [hbc, hwrap]
            exact hc.1 (by simpa using hl)
          · rw [hbc, hwrap, htk, List.sum_cons]
            rw [hc.2 l (by simpa using hl) hlne]
            refine congrArg some (Prod.ext ?_ rfl)
            simp only
            ring

/-- The no-null-mask branch (`lengths.map toI64`) satisfies the same entry
and sum bounds as the weaving branch. -/
theorem mapToI64_spec (lengths : List Nat) (hv : ∀ v ∈ lengths, v < 2 ^ 63) :
    (∀ l ∈ lengths.map toI64, l = (-1 : Int) ∨ 0 ≤ l) ∧
    ((lengths.map toI64).filter (fun x => x != -1)).sum ≤ ((lengths.sum : Nat) : Int) := by
  induction lengths with
  | nil => simp
  | cons v rest ih =>
    have hvv : v < 2 ^ 63 := hv v (List.mem_cons_self ..)
    have htv : toI64 v = (v : Int) := by
      unfold toI64
      rw [if_pos (by exact_mod_cast hvv)]
    have hkeep : ((v : Int) != -1) = true := bne_iff_ne.mpr (by omega)
    have ihr := ih fun u hu => hv u (List.mem_cons_of_mem _ hu)
    constructor
    · intro l hl
      rcases List.mem_cons.mp hl with h | h
      · rw [h, htv]
        exact Or.inr (by positivity)
      · exact ihr.1 l h
    · simp only [List.map_cons, List.filter_cons, htv, hkeep, if_pos trivial, List.sum_cons]
      have := ihr.2
      push_cast at this ⊢
      omega

/-- C10 counterexample: `make_utf8_direct_column` with no null mask and the
single decoded length `2^64 - 1`.  The row is not null (there is no PRESENT
mask), so the claim requires the index entry `(0, 2^64 - 1)` — start 0, the
sum of the zero earlier lengths — but `2^64 - 1 as i64` is `-1`, which the
source confuses with the null sentinel and stores as `(-1, 0)`. -/
theorem c10_utf8_direct_counterexample :
    Column.make_utf8_direct_column none [] [18446744073709551615]
      = .utf8Direct [] [(-1, 0)] ∧
    ((-1 : Int), (0 : Nat)) ≠ ((0 : Int), (18446744073709551615 : Nat)) := by
  decide

/-- C10 amended: provided the decoded lengths sum below `2^63` (so that no
length aliases the `-1` sentinel under `as i64` and the `i64` cursor cannot
overflow), every `Utf8Direct` column built by `make_utf8_direct_column`
satisfies the claim: the woven length list `nl` determines the index; null
rows (woven `-1`) get exactly `(-1, 0)`; and each non-null row's start is
the sum of the lengths of all earlier non-null rows — so the non-null spans
are consecutive, non-overlapping spans of the data buffer in row order. -/
theorem c10_utf8_direct_index (null_runs : Option (List Nat)) (data_bytes lengths : List Nat)
    (nl : List Int) (hsum : lengths.sum < 2 ^ 63)
    (hnl : nl = (match null_runs with
                 | some nrs => weaveCodes lengths nrs 0
                 | none => lengths.map toI64)) :
    Column.make_utf8_direct_column null_runs data_bytes lengths
        = .utf8Direct data_bytes (buildDirectIndices nl 0) ∧
    (buildDirectIndices nl 0).length = nl.length ∧
    ∀ i, i < nl.length →
      (nl.get? i = some (-1) → (buildDirectIndices nl 0).get? i = some (-1, 0)) ∧
      (∀ l : Int, nl.get? i = some l → l ≠ -1 →
        (buildDirectIndices nl 0).get? i
          = some (((nl.take i).filter (fun x => x != -1)).sum, l.toNat)) := by
  have hv : ∀ v ∈ lengths, v < 2 ^ 63 := by
    intro v hvm
    have := List.single_le_sum (fun (x : Nat) _ => Nat.zero_le x) v hvm
    omega
  have hbounds : (∀ l ∈ nl, l = (-1 : Int) ∨ 0 ≤ l) ∧
      (0 : Int) + (nl.filter (fun x => x != -1)).sum < 2 ^ 63 := by
    cases null_runs with
    | some nrs =>
      have hw := weaveCodes_spec lengths hv nrs 0
      rw [List.drop_zero] at hw
      subst hnl
      exact ⟨hw.1, by have := hw.2; push_cast at this ⊢; omega⟩
    | none =>
      have hw := mapToI64_spec lengths hv
      subst hnl
      exact ⟨hw.1, by have := hw.2; push_cast at this ⊢; omega⟩
  have hspec := buildDirectIndices_spec nl 0 le_rfl hbounds.1 hbounds.2
  refine ⟨?_, hspec.1, ?_⟩
  · cases null_runs <;> subst hnl <;> rfl
  · intro i hi
    refine ⟨(hspec.2 i hi).1, fun l hl hlne => ?_⟩
    rw [(hspec.2 i hi).2 l hl hlne, zero_add]

/-- C10 witness for the amended statement: lengths `[2, 3]` with one null
row before the first present row weave to `[-1, 2, 3]`; the third row's
span starts at `0 + 2 = 2` with length 3. -/
theorem c10_utf8_direct_index_witness :
    (buildDirectIndices [-1, 2, 3] 0).get? 2 = some (2, 3) := by
  have h := c10_utf8_direct_index (some [1, 0]) [] [2, 3] [-1, 2, 3] (by decide) (by decide)
  have h2 := (h.2.2 2 (by decide)).2 3 (by decide) (by decide)
  rw [h2]
  decide

/-!
C7 — the `MappedRows` iterator's error discipline.
-/

/-- C7: (i) a terminal iterator (`current_stripe` past the stripe list)
yields no item and leaves the state unchanged — so after any clause below
marks the iterator terminal, every later call yields nothing; (ii) a
column-materialization failure at the top of a stripe yields that error as
one item and marks the iterator terminal; (iii) at any row — row 0 gathers
from the freshly materialized columns `d`, later rows from the stored
ones — a `get` returning `None` yields an `InvalidValue` error naming the
stripe, column and row, and marks the iterator terminal; (iv) likewise at
any row, a mapping-function failure is yielded as an item while the cursor
advances to the next row of the same stripe — iteration continues. -/
theorem c7_mapped_rows {T E : Type} (env : MREnv T E) (s : MRState) :
    (env.rowCounts.length ≤ s.current_stripe → mrNext env s = .yield none s) ∧
    (∀ part e, s.current_stripe < env.rowCounts.length →
      s.current_row < env.rowCounts.getD s.current_stripe 0 → s.current_row = 0 →
      materializeLoop env s.current_stripe env.columns s.data = (part, some e) →
      mrNext env s
          = .yield (some (.error (env.inj e))) ⟨part, env.rowCounts.length, s.current_row⟩ ∧
      mrNext env ⟨part, env.rowCounts.length, s.current_row⟩
          = .yield none ⟨part, env.rowCounts.length, s.current_row⟩) ∧
    (∀ d ci, s.current_stripe < env.rowCounts.length →
      s.current_row < env.rowCounts.getD s.current_stripe 0 →
      (if s.current_row = 0 then materializeLoop env s.current_stripe env.columns s.data
       else (s.data, none)) = (d, none) →
      gatherValues s.current_row (d.zip env.columns) = .invalid ci →
      mrNext env s
          = .yield (some (.error (env.inj (.invalidValue s.current_stripe ci s.current_row))))
              ⟨d, env.rowCounts.length, s.current_row⟩ ∧
      mrNext env ⟨d, env.rowCounts.length, s.current_row⟩
          = .yield none ⟨d, env.rowCounts.length, s.current_row⟩) ∧
    (∀ d vals ue, s.current_stripe < env.rowCounts.length →
      s.current_row < env.rowCounts.getD s.current_stripe 0 →
      (if s.current_row = 0 then materializeLoop env s.current_stripe env.columns s.data
       else (s.data, none)) = (d, none) →
      gatherValues s.current_row (d.zip env.columns) = .ok vals →
      env.f vals = .error ue →
      mrNext env s = .yield (some (.error ue)) ⟨d, s.current_stripe, s.current_row + 1⟩) := by
  have hterm : ∀ s' : MRState, env.rowCounts.length ≤ s'.current_stripe →
      mrNext env s' = .yield none s' := by
    intro s' h
    rw [mrNext, if_pos h]
  refine ⟨hterm s, ?_, ?_, ?_⟩
  · intro part e h1 h2 h3 hmat
    refine ⟨?_, hterm _ (by simp)⟩
    rw [mrNext, if_neg (by omega), if_neg (by omega)]
    simp only [if_pos h3, hmat]
  · intro d ci h1 h2 hmat hgather
    refine ⟨?_, hterm _ (by simp)⟩
    rw [mrNext, if_neg (by omega), if_neg (by omega)]
    rw [hmat]
    simp only [hgather]
  · intro d vals ue h1 h2 hmat hgather hf
    rw [mrNext, if_neg (by omega), if_neg (by omega)]
    rw [hmat]
    simp only [hgather, hf]

/-- C7 witness: in a two-row stripe holding a `U64` column, the mapping
function fails at row 1, the error is the yielded item, and the cursor
moves to row 2 of the same stripe; and in a one-row stripe whose column
materializes with no values, `get(0)` returns `None` at row 0, so the
iterator yields `InvalidValue` for stripe 0 / column 0 / row 0 and becomes
terminal. -/
theorem c7_mapped_rows_witness :
    mrNext (T := Nat) (E := OrcError)
        ⟨[2], fun _ _ => .ok (.u64 [5, 6] none), [0], fun _ => .error .invalidState, id⟩
        ⟨[Column.u64 [5, 6] none], 0, 1⟩
      = .yield (some (.error OrcError.invalidState)) ⟨[Column.u64 [5, 6] none], 0, 2⟩ ∧
    mrNext (T := Nat) (E := OrcError)
        ⟨[1], fun _ _ => .ok (.u64 [] none), [0], fun _ => .error .invalidState, id⟩
        ⟨[], 0, 0⟩
      = .yield (some (.error (OrcError.invalidValue 0 0 0))) ⟨[Column.u64 [] none], 1, 0⟩ := by
  constructor
  · have h := (c7_mapped_rows (T := Nat) (E := OrcError)
        ⟨[2], fun _ _ => .ok (.u64 [5, 6] none), [0], fun _ => .error .invalidState, id⟩
        ⟨[Column.u64 [5, 6] none], 0, 1⟩).2.2.2 [Column.u64 [5, 6] none] [Value.u64 6]
      OrcError.invalidState
    exact h (by decide) (by decide) (by decide) (by decide) rfl
  · have h := (c7_mapped_rows (T := Nat) (E := OrcError)
        ⟨[1], fun _ _ => .ok (.u64 [] none), [0], fun _ => .error .invalidState, id⟩
        ⟨[], 0, 0⟩).2.2.1 [Column.u64 [] none] 0
    exact (h (by decide) (by decide) (by decide) (by decide)).1

end Orcrs
